import Mathlib

/-!
Verification of the scraping/parsing core of `qthrss.py` (a classifieds-site
scraper that republishes listings as Atom feeds).  The development shallowly
embeds the HTML document model used by the code (a BeautifulSoup-style tree
with `.text`, `.string`, `find`, `findAll`, sibling traversal), the string
operations it relies on (`str.replace`, `urljoin`, `strip`, `splitlines`),
the entry-metadata regular expression, and the main operations
(`get_categories`, `listings_from_dl`, `get_listings_for_category`,
`simple_search`).  Fallible Python code (unhandled exceptions such as
`NameError`, `TypeError`, `KeyError`, `AttributeError`, `ValueError`) is
modelled with `Option`/`Except`.
-/

namespace Qthrss

/-! ## String primitives -/

/-- Boolean prefix test on character lists (used to model Python string
matching; written with `=` so that proofs reduce smoothly). -/
def listPre : List Char → List Char → Bool
  | [], _ => true
  | _ :: _, [] => false
  | a :: as, b :: bs => if a = b then listPre as bs else false

/-- Boolean substring test on character lists, modelling Python's `in`
operator on strings. -/
def subList (pat : List Char) : List Char → Bool
  | [] => pat.isEmpty
  | c :: rest => listPre pat (c :: rest) || subList pat rest

/-- Substring test on strings: `subMem pat s` means `pat in s` in Python. -/
def subMem (pat s : String) : Bool := subList pat.data s.data

/-- Strip whitespace from both ends of a character list, modelling
Python's `str.strip()` (structural, kernel-computable, unlike core's
`String.trim`). -/
def stripChars (l : List Char) : List Char :=
  ((l.dropWhile Char.isWhitespace).reverse.dropWhile Char.isWhitespace).reverse

/-- Python's `str.strip()`. -/
def strip (s : String) : String := ⟨stripChars s.data⟩

/-- Split a character list on a separator character (used to model
`str.splitlines` — the scraped text only ever contains `\n` — and the
space-separated `class` attribute tokens). -/
def splitOnChar (sep : Char) : List Char → List (List Char)
  | [] => [[]]
  | c :: rest =>
    match splitOnChar sep rest with
    | [] => [[]]
    | g :: gs => if c = sep then [] :: g :: gs else (c :: g) :: gs

/-- Join character-list lines with a newline (`"\n".join(...)`). -/
def joinLines : List (List Char) → List Char
  | [] => []
  | [g] => g
  | g :: gs => g ++ '\n' :: joinLines gs

/-- Fuel-driven core of `replaceList`: each step consumes at least one
character, so fuel equal to the input length suffices (structural recursion
on the fuel keeps it kernel-computable). -/
def replaceGo (pat rep : List Char) : Nat → List Char → List Char
  | _, [] => []
  | 0, l => l
  | fuel + 1, c :: rest =>
    if !pat.isEmpty && listPre pat (c :: rest) then
      rep ++ replaceGo pat rep fuel (rest.drop (pat.length - 1))
    else
      c :: replaceGo pat rep fuel rest

/-- Left-to-right, non-overlapping replacement of every occurrence of `pat`
by `rep`, modelling Python's `str.replace` on character lists. -/
def replaceList (pat rep : List Char) (l : List Char) : List Char :=
  replaceGo pat rep l.length l

/-- A successful prefix test bounds the length. -/
theorem listPre_length_le : ∀ (t l : List Char), listPre t l = true →
    t.length ≤ l.length := by
  intro t
  induction t with
  | nil => intro l _; simp
  | cons a as ih =>
    intro l h
    match l with
    | [] => simp [listPre] at h
    | b :: bs =>
      rw [listPre] at h
      by_cases hab : a = b
      · rw [if_pos hab] at h
        simpa using ih bs h
      · rw [if_neg hab] at h
        exact absurd h (by simp)

/-- The fuel does not matter as long as it covers the input length. -/
theorem replaceGo_fuel (pat rep : List Char) :
    ∀ (fuel fuel' : Nat) (l : List Char), l.length ≤ fuel → l.length ≤ fuel' →
      replaceGo pat rep fuel l = replaceGo pat rep fuel' l := by
  intro fuel
  induction fuel with
  | zero =>
    intro fuel' l hf hf'
    have : l = [] := List.length_eq_zero.mp (Nat.le_zero.mp hf)
    subst this
    cases fuel' <;> rfl
  | succ f ih =>
    intro fuel' l hf hf'
    match l, fuel' with
    | [], f' => cases f' <;> rfl
    | c :: rest, 0 => simp at hf'
    | c :: rest, f' + 1 =>
      rw [replaceGo, replaceGo]
      by_cases hc : (!pat.isEmpty && listPre pat (c :: rest)) = true
      · rw [if_pos hc, if_pos hc]
        have hd : (rest.drop (pat.length - 1)).length ≤ rest.length := by
          simp [List.length_drop]
        exact congrArg (rep ++ ·)
          (ih f' _ (le_trans hd (by simpa using hf)) (le_trans hd (by simpa using hf')))
      · rw [if_neg hc, if_neg hc]
        exact congrArg (c :: ·)
          (ih f' rest (by simpa using hf) (by simpa using hf'))

/-- The empty-list equation of `replaceList`. -/
theorem replaceList_nil (pat rep : List Char) : replaceList pat rep [] = [] := rfl

/-- The cons equation of `replaceList` (the shape of the Python loop: on a
match, emit the replacement and continue after the matched characters;
otherwise copy one character). -/
theorem replaceList_cons_eqn (pat rep : List Char) (c : Char) (rest : List Char) :
    replaceList pat rep (c :: rest) =
      if !pat.isEmpty && listPre pat (c :: rest) then
        rep ++ replaceList pat rep ((c :: rest).drop pat.length)
      else
        c :: replaceList pat rep rest := by
  show replaceGo pat rep (rest.length + 1) (c :: rest) = _
  rw [replaceGo]
  by_cases hc : (!pat.isEmpty && listPre pat (c :: rest)) = true
  · rw [if_pos hc, if_pos hc]
    have hpne : pat ≠ [] := by
      have hc' := hc
      simp only [Bool.and_eq_true, Bool.not_eq_true'] at hc'
      simpa [List.isEmpty_iff] using hc'.1
    have hk : 1 ≤ pat.length := by
      rcases pat with _ | _
      · exact absurd rfl hpne
      · simp
    have hdd : (c :: rest).drop pat.length = rest.drop (pat.length - 1) := by
      rcases hp : pat with _ | ⟨p, ps⟩
      · exact absurd hp hpne
      · simp
    rw [hdd]
    refine congrArg (rep ++ ·) ?_
    show replaceGo pat rep rest.length (rest.drop (pat.length - 1)) =
      replaceGo pat rep (rest.drop (pat.length - 1)).length (rest.drop (pat.length - 1))
    exact replaceGo_fuel pat rep rest.length _ _ (by simp [List.length_drop]) le_rfl
  · rw [if_neg hc, if_neg hc]
    rfl

/-- Python's `str.replace` (replace all occurrences). -/
def strReplace (s pat rep : String) : String :=
  ⟨replaceList pat.data rep.data s.data⟩

/-- String prefix test: `strStarts s t` means `s.startswith(t)`. -/
def strStarts (s t : String) : Bool := listPre t.data s.data

/-- The scraper's base URL (`QTHRSS.base_url`). -/
def base_url : String := "https://swap.qth.com"

/-- Model of `urllib.parse.urljoin` specialised to the base
`"https://swap.qth.com"` (an https URL with empty path): a reference with a
scheme is returned as-is, a protocol-relative reference gets the base's
scheme, a root-relative reference is appended to the origin, an empty
reference yields the base, and a plain relative reference is attached under
`/`.  (Dot-segment normalisation and bare query/fragment references are not
modelled; the repository never produces them.) -/
def urljoin (base url : String) : String :=
  if strStarts url "http://" || strStarts url "https://" then url
  else if strStarts url "//" then "https:" ++ url
  else if url = "" then base
  else if strStarts url "/" then base ++ url
  else base ++ "/" ++ url

/-! ## HTML document model -/

/-- An HTML tree node: either a text node (`bs4.NavigableString`) or an
element (`bs4.Tag`) with a tag name, attributes and children. -/
inductive Node where
  | text (s : String)
  | elem (tag : String) (attrs : List (String × String)) (children : List Node)

/-- Tag name of a node (`tag.name`); text nodes have no name. -/
def Node.tagName : Node → String
  | .text _ => ""
  | .elem t _ _ => t

/-- Attribute list of a node. -/
def Node.attrList : Node → List (String × String)
  | .text _ => []
  | .elem _ a _ => a

/-- Children of a node. -/
def Node.children : Node → List Node
  | .text _ => []
  | .elem _ _ cs => cs

/-- Whether a node is an element (a `bs4.Tag`). -/
def Node.isElem : Node → Bool
  | .text _ => false
  | .elem _ _ _ => true

/-- Attribute lookup, `tag["k"]` returning `none` where Python would raise
`KeyError`. -/
def Node.getAttr (n : Node) (k : String) : Option String :=
  (n.attrList.find? (fun p => p.1 = k)).map (fun p => p.2)

/-- Element children of a node, modelling
`tag.findChildren(recursive=False)` (which yields only tags). -/
def Node.childElems (n : Node) : List Node :=
  n.children.filter Node.isElem

mutual

/-- Concatenated text of all descendant text nodes (`tag.text`). -/
def Node.textAll : Node → String
  | .text s => s
  | .elem _ _ cs => textAllList cs

/-- Concatenated text of a list of nodes. -/
def textAllList : List Node → String
  | [] => ""
  | c :: cs => c.textAll ++ textAllList cs

end

/-- Model of `tag.string`: a text node's own string; for an element with a
single child, the child's `string`; `none` otherwise. -/
def Node.nodeString : Node → Option String
  | .text s => some s
  | .elem _ _ [c] => Node.nodeString c
  | .elem _ _ _ => none

mutual

/-- First descendant (document preorder, excluding the node itself)
satisfying `p`, modelling `tag.find(...)`. -/
def Node.findDesc (p : Node → Bool) : Node → Option Node
  | .text _ => none
  | .elem _ _ cs => findDescList p cs

/-- First node in preorder over a forest satisfying `p`. -/
def findDescList (p : Node → Bool) : List Node → Option Node
  | [] => none
  | c :: cs =>
    if p c then some c
    else
      match Node.findDesc p c with
      | some r => some r
      | none => findDescList p cs

end

mutual

/-- All descendants (document preorder, excluding the node itself)
satisfying `p`, modelling `tag.findAll(...)`. -/
def Node.findAllDesc (p : Node → Bool) : Node → List Node
  | .text _ => []
  | .elem _ _ cs => findAllList p cs

/-- All nodes in preorder over a forest satisfying `p`. -/
def findAllList (p : Node → Bool) : List Node → List Node
  | [] => []
  | c :: cs =>
    (if p c then [c] else []) ++ Node.findAllDesc p c ++ findAllList p cs

end

/-! ## Dates (`datetime.datetime.strptime(_, "%m/%d/%y")` at UTC midnight) -/

/-- A UTC-midnight timestamp, as produced by
`datetime.strptime(d, "%m/%d/%y").replace(tzinfo=timezone.utc)`: the time
components are always zero, so only the date is carried. -/
structure DT where
  year : Nat
  month : Nat
  day : Nat
deriving DecidableEq, Repr

/-- Two-digit number parse. -/
def parse2 (a b : Char) : Option Nat :=
  if a.isDigit && b.isDigit then some ((a.toNat - 48) * 10 + (b.toNat - 48))
  else none

/-- Python's `%y` pivot: `00`–`68` map to 20xx, `69`–`99` to 19xx. -/
def pivotYear (y : Nat) : Nat := if y ≤ 68 then 2000 + y else 1900 + y

/-- Gregorian leap-year test. -/
def isLeap (y : Nat) : Bool := (y % 4 = 0 && y % 100 ≠ 0) || y % 400 = 0

/-- Number of days in a month, used by `strptime`'s date validation. -/
def daysInMonth (y m : Nat) : Nat :=
  if m = 2 then (if isLeap y then 29 else 28)
  else if m = 4 ∨ m = 6 ∨ m = 9 ∨ m = 11 then 30
  else 31

/-- Model of `datetime.strptime(s, "%m/%d/%y")` on the two-digit
`MM/DD/YY` strings produced by the metadata regular expression (the only
shape the code ever passes); `none` models the `ValueError` raised on a
malformed or out-of-range date. -/
def strptimeMDY (s : String) : Option DT :=
  match s.data with
  | [m1, m2, s1, d1, d2, s2, y1, y2] =>
    if s1 = '/' ∧ s2 = '/' then do
      let m ← parse2 m1 m2
      let d ← parse2 d1 d2
      let yy ← parse2 y1 y2
      let y := pivotYear yy
      if 1 ≤ m ∧ m ≤ 12 ∧ 1 ≤ d ∧ d ≤ daysInMonth y m then some ⟨y, m, d⟩
      else none
    else none
  | _ => none

/-! ## The entry-metadata regular expression

`QTHRSS.re_entry_metadata` is

```
Listing #(?P<listingid>\d+) +- +Submitted on (?P<date_created>\d\d/\d\d/\d\d)
by Callsign (?P<callsign>[^ ,]+),? (Modified on (?P<date_modified>\d\d/\d\d/\d\d),? )?
(Web Site: (?P<website>[^ ]+ ) )?- IP: (?P<ip>.*)
```

The pattern is hand-translated into a deterministic matcher.  This is
faithful because every quantified piece is forced: `\d+`, `[^ ,]+` and
`[^ ]+` cannot consume the delimiter that must follow them, a `,?` whose
comma is present must take it (the following literal is a space), and when
the literal head of an optional group is present but the group fails, the
material after the group cannot match the group's head either, so skipping
the group fails exactly when committing to it fails. -/

/-- Captured groups of `re_entry_metadata` (a `re.Match`'s named groups;
`none` models a group that did not participate in the match). -/
structure MetaGroups where
  listingid : String
  date_created : String
  callsign : String
  date_modified : Option String
  website : Option String
  ip : String
deriving DecidableEq, Repr

/-- Match a literal, returning the rest of the input. -/
def litP (lit l : List Char) : Option (List Char) :=
  if listPre lit l then some (l.drop lit.length) else none

/-- Match `\d+` (greedy; its follower is never a digit). -/
def digitsP (l : List Char) : Option (List Char × List Char) :=
  let t := l.takeWhile Char.isDigit
  if t.isEmpty then none else some (t, l.dropWhile Char.isDigit)

/-- Match ` +` (greedy; its follower is never a space). -/
def spacesP (l : List Char) : Option (List Char) :=
  if (l.takeWhile (fun c => c = ' ')).isEmpty then none
  else some (l.dropWhile (fun c => c = ' '))

/-- Match `\d\d/\d\d/\d\d`. -/
def dateP (l : List Char) : Option (List Char × List Char) :=
  match l with
  | a :: b :: c :: d :: e :: f :: g :: h :: rest =>
    if a.isDigit ∧ b.isDigit ∧ c = '/' ∧ d.isDigit ∧ e.isDigit ∧ f = '/'
        ∧ g.isDigit ∧ h.isDigit then
      some ([a, b, c, d, e, f, g, h], rest)
    else none
  | _ => none

/-- Match the optional group `(Modified on (\d\d/\d\d/\d\d),? )?`:
returns the captured date (or `none`) and the rest of the input. -/
def modifiedP (l : List Char) : Option (List Char) × List Char :=
  match (do
      let l1 ← litP "Modified on ".data l
      let (dm, l2) ← dateP l1
      let l3 := if listPre [','] l2 then l2.drop 1 else l2
      let l4 ← litP [' '] l3
      pure (dm, l4) : Option (List Char × List Char)) with
  | some (dm, rest) => (some dm, rest)
  | none => (none, l)

/-- Match the optional group `(Web Site: ([^ ]+ ) )?`: returns the captured
website (which includes its trailing space, as in the pattern) and the rest
of the input. -/
def websiteP (l : List Char) : Option (List Char) × List Char :=
  match (do
      let l1 ← litP "Web Site: ".data l
      let t := l1.takeWhile (fun c => c ≠ ' ')
      if t.isEmpty then none
      else do
        let l2 := l1.dropWhile (fun c => c ≠ ' ')
        let l3 ← litP [' '] l2
        let l4 ← litP [' '] l3
        pure (t ++ [' '], l4) : Option (List Char × List Char)) with
  | some (w, rest) => (some w, rest)
  | none => (none, l)

/-- Match `([^ ,]+),? ` (callsign): a nonempty run excluding space and
comma, then an optional comma, then a space. -/
def callsignP (l : List Char) : Option (List Char × List Char) := do
  let t := l.takeWhile (fun c => c ≠ ' ' ∧ c ≠ ',')
  if t.isEmpty then none
  else
    let l1 := l.dropWhile (fun c => c ≠ ' ' ∧ c ≠ ',')
    let l2 := if listPre [','] l1 then l1.drop 1 else l1
    let l3 ← litP [' '] l2
    pure (t, l3)

/-- Attempt to match the whole pattern at the start of the input. -/
def matchAt (l : List Char) : Option MetaGroups := do
  let l ← litP "Listing #".data l
  let (lid, l) ← digitsP l
  let l ← spacesP l
  let l ← litP ['-'] l
  let l ← spacesP l
  let l ← litP "Submitted on ".data l
  let (dc, l) ← dateP l
  let l ← litP " by Callsign ".data l
  let (cs, l) ← callsignP l
  let (dm, l) := modifiedP l
  let (ws, l) := websiteP l
  let l ← litP "- IP: ".data l
  let ip := l.takeWhile (fun c => c ≠ '\n')
  pure ⟨⟨lid⟩, ⟨dc⟩, ⟨cs⟩, dm.map String.mk, ws.map String.mk, ⟨ip⟩⟩

/-- Leftmost-match search over a character list. -/
def reSearchList (l : List Char) : Option MetaGroups :=
  match matchAt l with
  | some g => some g
  | none =>
    match l with
    | [] => none
    | _ :: rest => reSearchList rest

/-- Model of `QTHRSS.re_entry_metadata.search(s)`: leftmost match of the
entry-metadata pattern, or `none`. -/
def re_entry_metadata_search (s : String) : Option MetaGroups :=
  reSearchList s.data

/-! ## Listings -/

/-- The `Listing` dataclass.  `published`/`updated` are UTC-midnight
timestamps (`None` modelled by `none`). -/
structure Listing where
  title : String
  published : Option DT
  updated : Option DT
  description : String
  contact_url : String
  view_url : String
  photo_url : Option String := none
deriving DecidableEq, Repr

/-- Python's `"\n".join(s.splitlines()[:2])` (line splitting modelled as
splitting on `\n`, the only separator occurring in the scraped text). -/
def firstTwoLines (s : String) : String :=
  ⟨joinLines ((splitOnChar '\n' s.data).take 2)⟩

/-- The regex/`strptime` portion of the `dd` branch of
`QTHRSS.listings_from_dl` (lines 134–147): `published`/`updated` start as
`None`; on a regex match, each nonempty date group is parsed with
`strptime` (whose `ValueError` on a bad date — modelled by the outer
`none` — would crash the extraction). -/
def metaTimestamps (desc : String) : Option (Option DT × Option DT) :=
  match re_entry_metadata_search desc with
  | none => some (none, none)
  | some g =>
    (if g.date_created = "" then (some none : Option (Option DT))
     else (strptimeMDY g.date_created).map some).bind fun published =>
    (match g.date_modified with
     | none => (some none : Option (Option DT))
     | some dm =>
       if dm = "" then some none
       else (strptimeMDY dm).map some).bind fun updated =>
    some (published, updated)

/-- Predicate for `child.find("a", string="...")`: an `a` tag whose
`.string` is exactly `s`. -/
def isLinkWithString (s : String) (n : Node) : Bool :=
  n.tagName = "a" && n.nodeString = some s

/-- `child.find("a", string="Click to Contact")`. -/
def findContact (dd : Node) : Option Node :=
  dd.findDesc (isLinkWithString "Click to Contact")

/-- `child.find("a", string="Click Here to View Picture")`. -/
def findPic (dd : Node) : Option Node :=
  dd.findDesc (isLinkWithString "Click Here to View Picture")

/-- Build one `Listing` from a `dd` element and the pending title, as the
`dd` branch of `QTHRSS.listings_from_dl` does; `none` models the crashes of
that branch (`ValueError` from `strptime`, `TypeError` when the contact
link is missing, `KeyError` when a found link has no `href`). -/
def mkListing (title : String) (dd : Node) : Option Listing := do
  let description := firstTwoLines dd.textAll
  let (published, updated) ← metaTimestamps description
  let contact ← findContact dd
  let chref ← contact.getAttr "href"
  let photo_url ←
    match findPic dd with
    | some p =>
      match p.getAttr "href" with
      | some ph => some (some (urljoin base_url ph))
      | none => none
    | none => some none
  pure
    { title := title
      published := published
      updated := updated
      description := description
      contact_url := urljoin base_url chref
      view_url := urljoin base_url (strReplace chref "contact" "view_ad")
      photo_url := photo_url }

/-- The child loop of `QTHRSS.listings_from_dl`: a `dt` sets the pending
title (`child.text.strip()`); a `dd` finalises one `Listing` with the
pending title (`none` pending title models the `NameError` on a `dd` with
no preceding `dt`); other children are skipped. -/
def listingsAux (title : Option String) : List Node → Option (List Listing)
  | [] => some []
  | c :: cs =>
    if c.tagName = "dt" then listingsAux (some (strip c.textAll)) cs
    else if c.tagName = "dd" then do
      let t ← title
      let l ← mkListing t c
      let rest ← listingsAux title cs
      pure (l :: rest)
    else listingsAux title cs

/-- `QTHRSS.listings_from_dl(dl)`: iterate over the element children of
`dl[0]` (`none` on an empty selection models the `IndexError`; callers
guard against it). -/
def listings_from_dl : List Node → Option (List Listing)
  | [] => none
  | d :: _ => listingsAux none d.childElems

/-! ## Category extraction (`QTHRSS.get_categories`) -/

/-- The `Category` dataclass. -/
structure Category where
  url : String
  title : String
deriving DecidableEq, Repr

/-- Failure modes of `get_categories`.  `structureError` models the
`AttributeError` raised at line 84 when no marker cell is found (`find`
returns `None` and `.parent` is dereferenced) — the failure the spec's
error taxonomy names `StructureError`; `keyError` models the `KeyError`
raised when a collected link has no `href`. -/
inductive QError where
  | structureError
  | keyError
deriving DecidableEq, Repr

/-- The `self.categories` mapping (a Python `dict[str, Category]`),
modelled extensionally as a function; Python `dict` equality is
key-by-key value equality. -/
def Cats : Type := String → Option Category

/-- The empty mapping. -/
def emptyCats : Cats := fun _ => none

/-- Store one key/value pair (`d[k] = v`). -/
def catsUpd (d : Cats) (kv : String × Category) : Cats :=
  fun k => if k = kv.1 then some kv.2 else d k

/-- Predicate for `find("td", string=lambda text: m in text if text else None)`:
a `td` whose `.string` is non-`None` and contains `m`. -/
def tdWithStringHas (m : String) (n : Node) : Bool :=
  n.tagName = "td" &&
    (match n.nodeString with
     | some s => subMem m s
     | none => false)

/-- Whether a row terminates the category scan: `row.find("td",
string=lambda text: "QUICK SEARCH" in text if text else None)` is truthy. -/
def rowIsQuickSearch (r : Node) : Bool :=
  (r.findDesc (tdWithStringHas "QUICK SEARCH")).isSome

/-- The links collected from one row:
`{link.text.strip(): Category(url=link["href"], title=link.text.strip())
for link in row.findAll("a")}` — an error if some link has no `href`. -/
def linksOf : List Node → Except QError (List (String × Category))
  | [] => .ok []
  | a :: rest =>
    match a.getAttr "href" with
    | some h => do
      let rs ← linksOf rest
      .ok ((strip a.textAll, ⟨h, strip a.textAll⟩) :: rs)
    | none => .error .keyError

/-- The links collected from one row, in document order (the dict
comprehension builds one pair per link; a link without `href` raises). -/
def rowLinksE (r : Node) : Except QError (List (String × Category)) :=
  linksOf (r.findAllDesc (fun n => n.tagName = "a"))

/-- The sibling walk of `get_categories` (lines 88–104): starting from the
anchor row's following siblings, skip non-tag siblings (`findNextSibling`
returns tags), stop at the first row containing a "QUICK SEARCH" cell (or
at the end), and merge each earlier row's links into the mapping. -/
def walkRows (d : Cats) : List Node → Except QError Cats
  | [] => .ok d
  | .text _ :: rs => walkRows d rs
  | .elem t a cs :: rs =>
    if rowIsQuickSearch (.elem t a cs) then .ok d
    else
      match rowLinksE (.elem t a cs) with
      | .error e => .error e
      | .ok ls => walkRows (ls.foldl catsUpd d) rs

mutual

/-- Search `c` and its subtree (document preorder) for the first `td`
whose `.string` contains `m`; `foll` is the list of `c`'s following
siblings and `sibs` the following siblings of `c`'s parent.  When the
marker cell is found, the following siblings of its parent row are
returned (`soup.find(...).parent` then repeated `findNextSibling`). -/
def anchorNode (m : String) : Node → List Node → List Node → Option (List Node)
  | c, foll, sibs =>
    if tdWithStringHas m c then some sibs
    else
      match c with
      | .text _ => none
      | .elem _ _ gcs => anchorList m gcs foll

/-- Scan a sibling list whose parent's following siblings are `sibs`. -/
def anchorList (m : String) : List Node → List Node → Option (List Node)
  | [], _ => none
  | c :: cs, sibs =>
    match anchorNode m c cs sibs with
    | some r => some r
    | none => anchorList m cs sibs

end

/-- The following siblings of the anchor row (the parent of the first
"VIEW BY CATEGORY" cell), or `none` when the marker is absent. -/
def findAnchor (m : String) (doc : Node) : Option (List Node) :=
  match doc with
  | .text _ => none
  | .elem _ _ cs => anchorList m cs []

/-- `QTHRSS.get_categories`: locate the anchor row via the
"VIEW BY CATEGORY" marker (failing with `structureError` when absent), then
walk its following sibling rows, merging their links into the existing
mapping `d` (`self.categories`). -/
def get_categories (d : Cats) (doc : Node) : Except QError Cats :=
  match findAnchor "VIEW BY CATEGORY" doc with
  | none => .error .structureError
  | some sibs => walkRows d sibs

/-- Helper mirroring `walkRows` but collecting the link pairs instead of
folding them into a mapping (used to characterise the walk). -/
def collectRows : List Node → Except QError (List (String × Category))
  | [] => .ok []
  | .text _ :: rs => collectRows rs
  | .elem t a cs :: rs =>
    if rowIsQuickSearch (.elem t a cs) then .ok []
    else
      match rowLinksE (.elem t a cs) with
      | .error e => .error e
      | .ok ls =>
        match collectRows rs with
        | .error e => .error e
        | .ok rest => .ok (ls ++ rest)

/-- The rows scanned before the terminating "QUICK SEARCH" row. -/
def rowsBefore (sibs : List Node) : List Node :=
  sibs.takeWhile (fun r => !(r.isElem && rowIsQuickSearch r))

/-- The link pairs the walk collects from a list of rows (text rows
contribute nothing, matching `findNextSibling` skipping them). -/
def linkPairs (rows : List Node) : List (String × Category) :=
  rows.flatMap
    (fun r =>
      (r.findAllDesc (fun n => n.tagName = "a")).filterMap
        (fun a =>
          (a.getAttr "href").map (fun h => ((strip a.textAll), Category.mk h ((strip a.textAll))))))

/-! ## Pagination (`QTHRSS.get_listings_for_category`) -/

/-- The default `entries_per_category` (also the class attribute default). -/
def ENTRIES_PER_CATEGORY : Nat := 20

/-- The `while` loop of `get_listings_for_category`, instrumented with the
list of requested page numbers: while fewer than `n` listings have
accumulated, fetch the next page (`pages` abstracts
`_get_listings_for_category category`); an empty batch ends the loop,
otherwise its listings are appended. -/
def getListingsLoop {α : Type} (n : Nat) (pages : Nat → List α) (p : Nat)
    (acc : List α) : List α × List Nat :=
  if _h1 : acc.length < n then
    if _h2 : (pages p).isEmpty then (acc, [p])
    else
      let r := getListingsLoop n pages (p + 1) (acc ++ pages p)
      (r.1, p :: r.2)
  else (acc, [])
termination_by n - acc.length
decreasing_by
  simp only [List.length_append]
  have : (pages p).length ≠ 0 := by simpa [List.isEmpty_iff] using _h2
  omega

/-- `QTHRSS.get_listings_for_category` with the per-category maximum `n`
(`self.entries_per_category`) and the page fetcher abstracted: pages are
requested from `itertools.count(start=1)`. -/
def get_listings_for_category {α : Type} (n : Nat) (pages : Nat → List α) :
    List α :=
  (getListingsLoop n pages 1 []).1

/-- The page numbers `get_listings_for_category` requests, in order. -/
def get_listings_requests {α : Type} (n : Nat) (pages : Nat → List α) :
    List Nat :=
  (getListingsLoop n pages 1 []).2

/-! ## Page selection and search (`_get_listings_for_category`,
`simple_search`) -/

/-- Collect, in document order, the `dl` elements having a strict ancestor
satisfying `p` (CSS descendant combinator `A dl`); `inside` records whether
an ancestor satisfying `p` has been passed. -/
def selectDl (p : Node → Bool) (inside : Bool) : Node → List Node
  | .text _ => []
  | .elem t a cs =>
    (if inside && t = "dl" then [Node.elem t a cs] else []) ++
      selectDlList p (inside || p (Node.elem t a cs)) cs
where
  /-- Collect over a forest. -/
  selectDlList (p : Node → Bool) (inside : Bool) : List Node → List Node
    | [] => []
    | c :: cs => selectDl p inside c ++ selectDlList p inside cs

/-- Ancestor test for `.qth-content-wrap`: the `class` attribute contains
the token `qth-content-wrap`. -/
def wrapAnc (n : Node) : Bool :=
  match n.getAttr "class" with
  | some c => (splitOnChar ' ' c.data).contains "qth-content-wrap".data
  | none => false

/-- Ancestor test for `table`. -/
def tableAnc (n : Node) : Bool := n.tagName = "table"

/-- `soup.select(".qth-content-wrap dl")`. -/
def select_wrap_dl (doc : Node) : List Node := selectDl wrapAnc false doc

/-- `soup.select("table dl")`. -/
def select_table_dl (doc : Node) : List Node := selectDl tableAnc false doc

/-- The per-document tail of `QTHRSS._get_listings_for_category`
(lines 121–125): an empty selection yields `[]`, otherwise the selection is
parsed with `listings_from_dl`. -/
def category_parse_dls (dls : List Node) : Option (List Listing) :=
  if dls.isEmpty then some [] else listings_from_dl dls

/-- The per-document tail of `QTHRSS.simple_search` (lines 213–217): an
empty selection yields `[]`, otherwise the selection is parsed with
`listings_from_dl`. -/
def search_parse_dls (dls : List Node) : Option (List Listing) :=
  if dls.isEmpty then some [] else listings_from_dl dls

/-- One page request of `_get_listings_for_category`, given the fetched
document. -/
def get_listings_page (doc : Node) : Option (List Listing) :=
  category_parse_dls (select_wrap_dl doc)

/-- An HTTP GET issued through `get_soup` (URL relative to `base_url`, plus
query parameters). -/
structure Request where
  url : String
  params : List (String × String)
deriving DecidableEq, Repr

/-- `QTHRSS.search_url`. -/
def search_url : String := "search-results.php"

/-- The single request `simple_search(query)` issues. -/
def simple_search_request (q : String) : Request :=
  ⟨search_url, [("keywords", q), ("fieldtosearch", "titleordesc")]⟩

/-- The requests `simple_search` issues (it calls `get_soup` exactly once;
there is no pagination loop in lines 208–217). -/
def simple_search_requests (q : String) : List Request :=
  [simple_search_request q]

/-- `QTHRSS.simple_search` over an abstract fetcher: fetch the search page
once, select `table dl`, and parse. -/
def simple_search (fetch : Request → Node) (q : String) :
    Option (List Listing) :=
  search_parse_dls (select_table_dl (fetch (simple_search_request q)))

/-! ## Concrete fixtures (sample documents used to instantiate theorems) -/

/-- A realistic description line, as scraped from a listing page. -/
def listingDesc : String :=
  "Listing #123 - Submitted on 01/15/24 by Callsign W1ABC - IP: 1.2.3.4"

/-- A contact link. -/
def contactLink : Node :=
  Node.elem "a" [("href", "cgi-bin/contact.php?id=1")] [Node.text "Click to Contact"]

/-- A picture link. -/
def picLink : Node :=
  Node.elem "a" [("href", "cgi-bin/pic.php?id=9")]
    [Node.text "Click Here to View Picture"]

/-- A well-formed `dd` with contact and picture links. -/
def ddGood : Node := Node.elem "dd" [] [Node.text listingDesc, contactLink, picLink]

/-- A well-formed `dd` with a contact link but no picture link. -/
def ddNoPic : Node := Node.elem "dd" [] [Node.text listingDesc, contactLink]

/-- A `dd` with no contact link. -/
def ddNoContact : Node := Node.elem "dd" [] [Node.text listingDesc]

/-- A `dt` whose stripped text is a title. -/
def dtGood : Node := Node.elem "dt" [] [Node.text " FT-817 for sale "]

/-- A `dt` containing only whitespace (strips to the empty string). -/
def dtBlank : Node := Node.elem "dt" [] [Node.text "   "]

/-- A well-formed definition list with two listings. -/
def dlGood : Node :=
  Node.elem "dl" [] [dtGood, ddGood, Node.text "\n", dtGood, ddNoPic]

/-- The listings extracted from `dlGood`. -/
def dlGoodListings : List Listing := (listings_from_dl [dlGood]).getD []

/-- A definition list whose only `dt` is whitespace. -/
def dlBlankTitle : Node := Node.elem "dl" [] [dtBlank, ddNoPic]

/-- A definition list whose `dd` has no contact link. -/
def dlNoContact : Node := Node.elem "dl" [] [dtGood, ddNoContact]

/-- A definition list whose first child is a `dd` with no preceding `dt`. -/
def dlUntitled : Node := Node.elem "dl" [] [ddGood]

/-- The "VIEW BY CATEGORY" marker cell. -/
def tdMarker : Node := Node.elem "td" [] [Node.text "** VIEW BY CATEGORY **"]

/-- The anchor row: the marker cell's parent. -/
def rowAnchor : Node := Node.elem "tr" [] [tdMarker]

/-- A category row with one link. -/
def rowCats : Node :=
  Node.elem "tr" []
    [Node.elem "td" []
      [Node.elem "a" [("href", "index.php?c=1")] [Node.text " Antennas "]]]

/-- The terminating "QUICK SEARCH" row. -/
def rowQuick : Node := Node.elem "tr" [] [Node.elem "td" [] [Node.text "QUICK SEARCH"]]

/-- A row with a link after the terminator (must never be collected). -/
def rowAfterQS : Node :=
  Node.elem "tr" [] [Node.elem "a" [("href", "after.php")] [Node.text "After"]]

/-- An index page with both markers, one category row, and a row after the
terminator. -/
def catsDoc : Node :=
  Node.elem "body" []
    [Node.elem "table" [] [rowAnchor, Node.text "\n", rowCats, rowQuick, rowAfterQS]]

/-- The mapping scraped from `catsDoc`. -/
def catsDocResult : Cats :=
  catsUpd emptyCats ("Antennas", ⟨"index.php?c=1", "Antennas"⟩)

/-- An index page whose two marker rows are adjacent: both markers are in
well-formed positions but no category link lies between them. -/
def markerOnlyDoc : Node :=
  Node.elem "body" [] [Node.elem "table" [] [rowAnchor, rowQuick]]

/-! ## Theorems -/

/-- Full characterisation of the pagination loop: the requested pages are
consecutive starting at `p`; the result is the accumulator followed by the
concatenation of all requested pages; before every request fewer than `n`
listings had accumulated; every non-final requested page was non-empty; and
the loop stopped either because `n` was reached or because the final
requested page was empty. -/
theorem getListingsLoop_spec {α : Type} (n : Nat) (pages : Nat → List α) :
    ∀ fuel p acc r, n - acc.length ≤ fuel → getListingsLoop n pages p acc = r →
      r.2 = List.range' p r.2.length ∧
      r.1 = acc ++ (List.range' p r.2.length).flatMap pages ∧
      (∀ j, j < r.2.length → (acc ++ (List.range' p j).flatMap pages).length < n) ∧
      (∀ j, j + 1 < r.2.length → pages (p + j) ≠ []) ∧
      (n ≤ r.1.length ∨ (r.2 ≠ [] ∧ pages (p + (r.2.length - 1)) = [])) := by
  intro fuel
  induction fuel with
  | zero =>
    intro p acc r hf hr
    have h1 : ¬ acc.length < n := by omega
    rw [getListingsLoop, dif_neg h1] at hr
    subst hr
    refine ⟨by simp, by simp, ?_, ?_, Or.inl (by simpa using Nat.le_of_not_lt h1)⟩
    · intro j hj; simp at hj
    · intro j hj; simp at hj
  | succ fuel ih =>
    intro p acc r hf hr
    by_cases h1 : acc.length < n
    · by_cases h2 : (pages p).isEmpty
      · rw [getListingsLoop, dif_pos h1, dif_pos h2] at hr
        subst hr
        have hpe : pages p = [] := by simpa [List.isEmpty_iff] using h2
        refine ⟨?_, ?_, ?_, ?_, Or.inr ⟨by simp, by simpa using hpe⟩⟩
        · simp [List.range'_succ]
        · simp [List.range'_succ, hpe]
        · intro j hj
          simp only [List.length_cons, List.length_nil] at hj
          have hj0 : j = 0 := by omega
          subst hj0
          simpa using h1
        · intro j hj
          simp only [List.length_cons, List.length_nil] at hj
          omega
      · rw [getListingsLoop, dif_pos h1, dif_neg h2] at hr
        have hplen : 1 ≤ (pages p).length := by
          rcases hq : pages p with _ | ⟨x, xs⟩
          · simp [hq] at h2
          · simp
        obtain ⟨ih1, ih2, ih3, ih4, ih5⟩ :=
          ih (p + 1) (acc ++ pages p) (getListingsLoop n pages (p + 1) (acc ++ pages p))
            (by simp only [List.length_append]; omega) rfl
        subst hr
        set r' := getListingsLoop n pages (p + 1) (acc ++ pages p) with hr'
        constructor
        · show p :: r'.2 = List.range' p (p :: r'.2).length
          simp only [List.length_cons, List.range'_succ]
          exact congrArg (p :: ·) ih1
        constructor
        · show r'.1 = acc ++ (List.range' p (p :: r'.2).length).flatMap pages
          simp only [List.length_cons, List.range'_succ, List.flatMap_cons]
          rw [ih2, List.append_assoc]
        constructor
        · show ∀ j, j < (p :: r'.2).length → _
          intro j hj
          match j with
          | 0 => simpa using h1
          | j' + 1 =>
            have := ih3 j' (by simpa using hj)
            simpa [List.range'_succ, List.flatMap_cons, List.append_assoc] using this
        constructor
        · intro j hj
          match j with
          | 0 => simpa [List.isEmpty_iff] using h2
          | j' + 1 =>
            have := ih4 j' (by simpa using hj)
            simpa [Nat.add_assoc, Nat.add_comm 1 j'] using this
        · rcases ih5 with h | ⟨hne, hemp⟩
          · exact Or.inl h
          · refine Or.inr ⟨by simp, ?_⟩
            have hk : 1 ≤ r'.2.length := by
              rcases hq : r'.2 with _ | _
              · exact absurd hq hne
              · simp [hq]
            show pages (p + ((p :: r'.2).length - 1)) = []
            simp only [List.length_cons, Nat.add_sub_cancel]
            have : p + 1 + (r'.2.length - 1) = p + r'.2.length := by omega
            rwa [this] at hemp
    · rw [getListingsLoop, dif_neg h1] at hr
      subst hr
      refine ⟨by simp, by simp, ?_, ?_, Or.inl (by simpa using Nat.le_of_not_lt h1)⟩
      · intro j hj; simp at hj
      · intro j hj; simp at hj

/-- The result of the pagination loop never exceeds
`max acc.length (n - 1 + psize)` elements when every page has at most
`psize` listings. -/
theorem getListingsLoop_len {α : Type} (n psize : Nat) (pages : Nat → List α)
    (hp : ∀ q, (pages q).length ≤ psize) :
    ∀ fuel p acc, n - acc.length ≤ fuel →
      (getListingsLoop n pages p acc).1.length ≤ max acc.length (n - 1 + psize) := by
  intro fuel
  induction fuel with
  | zero =>
    intro p acc hf
    have h1 : ¬ acc.length < n := by omega
    rw [getListingsLoop, dif_neg h1]
    simp
  | succ fuel ih =>
    intro p acc hf
    by_cases h1 : acc.length < n
    · by_cases h2 : (pages p).isEmpty
      · rw [getListingsLoop, dif_pos h1, dif_pos h2]; simp
      · rw [getListingsLoop, dif_pos h1, dif_neg h2]
        have hplen : 1 ≤ (pages p).length := by
          rcases hq : pages p with _ | _
          · simp [hq] at h2
          · simp
        have hrec := ih (p + 1) (acc ++ pages p)
          (by simp only [List.length_append]; omega)
        have hmax : max (acc ++ pages p).length (n - 1 + psize) = n - 1 + psize := by
          have := hp p
          simp only [List.length_append]
          omega
        simp only [hmax] at hrec
        exact le_trans hrec (le_max_right _ _)
    · rw [getListingsLoop, dif_neg h1]; simp

/-- C1: for every per-category maximum `n` and page oracle,
`get_listings_for_category` requests pages `1, 2, 3, …` in order
(`List.range' 1 k`), accumulates exactly the listings of the requested
pages, requests a page only while the accumulated count is below `n`,
requests no page after the first empty page (every non-final requested page
is non-empty), stops once the count reaches `n` or a page is empty, and
returns at most `n + psize - 1` listings when every page has at most
`psize` listings (and at least `0`, trivially). -/
theorem get_listings_for_category_pagination {α : Type} (n psize : Nat)
    (pages : Nat → List α) (hp : ∀ q, (pages q).length ≤ psize) :
    ∃ k, get_listings_requests n pages = List.range' 1 k ∧
      get_listings_for_category n pages = (List.range' 1 k).flatMap pages ∧
      (∀ j, j < k → ((List.range' 1 j).flatMap pages).length < n) ∧
      (∀ j, j + 1 < k → pages (1 + j) ≠ []) ∧
      (n ≤ (get_listings_for_category n pages).length ∨ (k ≠ 0 ∧ pages k = [])) ∧
      (get_listings_for_category n pages).length ≤ n - 1 + psize := by
  obtain ⟨h1, h2, h3, h4, h5⟩ :=
    getListingsLoop_spec n pages n 1 [] (getListingsLoop n pages 1 []) (by omega) rfl
  refine ⟨(getListingsLoop n pages 1 []).2.length, h1, by simpa using h2, ?_, ?_, ?_, ?_⟩
  · intro j hj
    simpa using h3 j hj
  · exact h4
  · rcases h5 with h | ⟨hne, hemp⟩
    · exact Or.inl h
    · refine Or.inr ⟨?_, ?_⟩
      · intro h0
        apply hne
        have h1' := h1
        rw [h0] at h1'
        simpa using h1'
      · have hk : 1 ≤ (getListingsLoop n pages 1 []).2.length := by
          rcases hq : (getListingsLoop n pages 1 []).2 with _ | _
          · exact absurd hq hne
          · simp [hq]
        have : 1 + ((getListingsLoop n pages 1 []).2.length - 1) =
            (getListingsLoop n pages 1 []).2.length := by omega
        rwa [this] at hemp
  · have := getListingsLoop_len n psize pages hp n 1 [] (by omega)
    simpa [get_listings_for_category] using this

/-- Witness for C1 at `n = 3`, `psize = 2`, constant pages `[0, 1]`. -/
theorem get_listings_for_category_pagination_witness :
    (∀ q : Nat, ((fun _ => [0, 1]) q : List Nat).length ≤ 2) ∧
    (∃ k, get_listings_requests 3 (fun _ => ([0, 1] : List Nat)) = List.range' 1 k ∧
      get_listings_for_category 3 (fun _ => ([0, 1] : List Nat)) =
        (List.range' 1 k).flatMap (fun _ => ([0, 1] : List Nat)) ∧
      (∀ j, j < k →
        ((List.range' 1 j).flatMap (fun _ => ([0, 1] : List Nat))).length < 3) ∧
      (∀ j, j + 1 < k → (fun _ => ([0, 1] : List Nat)) (1 + j) ≠ []) ∧
      (3 ≤ (get_listings_for_category 3 (fun _ => ([0, 1] : List Nat))).length ∨
        (k ≠ 0 ∧ (fun _ => ([0, 1] : List Nat)) k = [])) ∧
      (get_listings_for_category 3 (fun _ => ([0, 1] : List Nat))).length ≤ 3 - 1 + 2) :=
  ⟨fun _ => by simp,
    get_listings_for_category_pagination 3 2 (fun _ => ([0, 1] : List Nat))
      (fun _ => by simp)⟩

/-! ### String lemmas for the `contact` → `view_ad` substitution -/

/-- Strings with equal character lists are equal. -/
theorem strExt {s t : String} (h : s.data = t.data) : s = t := by
  cases s
  cases t
  exact congrArg String.mk h

/-- Head mismatch refutes a prefix test. -/
theorem listPre_cons_ne {a b : Char} (as bs : List Char) (h : a ≠ b) :
    listPre (a :: as) (b :: bs) = false := by
  simp only [listPre]
  exact if_neg h

/-- Equal heads step a prefix test. -/
theorem listPre_cons_eq (a : Char) (as bs : List Char) :
    listPre (a :: as) (a :: bs) = listPre as bs := by
  simp [listPre]

/-- A list is a `listPre`-prefix of itself followed by anything. -/
theorem listPre_append_self : ∀ t v : List Char, listPre t (t ++ v) = true := by
  intro t
  induction t with
  | nil => intro v; simp [listPre]
  | cons a as ih => intro v; simpa [listPre_cons_eq] using ih v

/-- A successful prefix test yields an append decomposition. -/
theorem listPre_exists : ∀ t l : List Char, listPre t l = true → ∃ v, l = t ++ v := by
  intro t
  induction t with
  | nil => intro l _; exact ⟨l, rfl⟩
  | cons a as ih =>
    intro l h
    match l with
    | [] => simp [listPre] at h
    | b :: bs =>
      by_cases hab : a = b
      · subst hab
        rw [listPre_cons_eq] at h
        obtain ⟨v, hv⟩ := ih bs h
        exact ⟨v, by simp [hv]⟩
      · rw [listPre_cons_ne _ _ hab] at h
        exact absurd h (by simp)

/-- The pattern `"contact"` does not start at a character other than `c`. -/
theorem listPre_contact_ne (c : Char) (l : List Char) (h : c ≠ 'c') :
    listPre "contact".data (c :: l) = false :=
  listPre_cons_ne _ _ (Ne.symm h)

/-- The pattern `"contact"` does not start at the `c` of `…qth.com`. -/
theorem listPre_contact_com (l : List Char) :
    listPre "contact".data ('c' :: 'o' :: 'm' :: l) = false := by
  rw [show "contact".data = 'c' :: 'o' :: 'n' :: 't' :: 'a' :: 'c' :: 't' :: [] from rfl,
    listPre_cons_eq, listPre_cons_eq]
  exact listPre_cons_ne _ _ (by decide)

/-- When no occurrence starts at the head, replacement keeps the head. -/
theorem replaceList_step {pat rep : List Char} (c : Char) (l : List Char)
    (h : listPre pat (c :: l) = false) :
    replaceList pat rep (c :: l) = c :: replaceList pat rep l := by
  rw [replaceList_cons_eqn, h]
  simp

/-- Replacing in a non-empty list yields a non-empty list (the replacement
string `view_ad` is non-empty). -/
theorem replaceList_contact_ne_nil (u : List Char) (h : u ≠ []) :
    replaceList "contact".data "view_ad".data u ≠ [] := by
  match u with
  | [] => exact absurd rfl h
  | c :: rest =>
    rw [replaceList_cons_eqn]
    by_cases hc :
        (!List.isEmpty "contact".data &&
            listPre "contact".data (c :: rest)) = true
    · rw [if_pos hc]
      rw [show "view_ad".data = 'v' :: "iew_ad".data from rfl]
      simp
    · rw [if_neg hc]
      simp

/-- A prefix avoiding the character `v` that survives the replacement was
already a prefix before it: replacements insert `view_ad` (which starts
with `v`) and otherwise copy characters. -/
theorem listPre_reflect :
    ∀ u t : List Char, (∀ ch ∈ t, ch ≠ 'v') →
      listPre t (replaceList "contact".data "view_ad".data u) = true →
      listPre t u = true := by
  intro u
  induction u with
  | nil =>
    intro t hch h
    rw [replaceList_nil] at h
    exact h
  | cons c rest ih =>
    intro t hch h
    by_cases hc :
        (!List.isEmpty "contact".data &&
            listPre "contact".data (c :: rest)) = true
    · rw [replaceList_cons_eqn, if_pos hc,
        show "view_ad".data = 'v' :: "iew_ad".data from rfl] at h
      match t with
      | [] => simp [listPre]
      | t0 :: t' =>
        exfalso
        by_cases ht : t0 = 'v'
        · exact hch t0 (by simp) ht
        · rw [List.cons_append, listPre_cons_ne _ _ (fun he => ht he)] at h
          exact absurd h (by simp)
    · rw [replaceList_cons_eqn, if_neg hc] at h
      match t with
      | [] => simp [listPre]
      | t0 :: t' =>
        by_cases ht : t0 = c
        · subst ht
          rw [listPre_cons_eq] at h ⊢
          exact ih t' (fun ch hm => hch ch (by simp [hm])) h
        · rw [listPre_cons_ne _ _ ht] at h
          exact absurd h (by simp)

/-- Replacement commutes with prepending `http://` (which contains neither
`c` nor an occurrence of the pattern across its boundary). -/
theorem replaceList_http (l : List Char) :
    replaceList "contact".data "view_ad".data ("http://".data ++ l) =
      "http://".data ++ replaceList "contact".data "view_ad".data l := by
  show replaceList _ _ ('h' :: 't' :: 't' :: 'p' :: ':' :: '/' :: '/' :: l) = _
  rw [replaceList_step 'h' _ (listPre_contact_ne _ _ (by decide)),
    replaceList_step 't' _ (listPre_contact_ne _ _ (by decide)),
    replaceList_step 't' _ (listPre_contact_ne _ _ (by decide)),
    replaceList_step 'p' _ (listPre_contact_ne _ _ (by decide)),
    replaceList_step ':' _ (listPre_contact_ne _ _ (by decide)),
    replaceList_step '/' _ (listPre_contact_ne _ _ (by decide)),
    replaceList_step '/' _ (listPre_contact_ne _ _ (by decide))]
  rfl

/-- Replacement commutes with prepending `https:`. -/
theorem replaceList_https_colon (l : List Char) :
    replaceList "contact".data "view_ad".data ("https:".data ++ l) =
      "https:".data ++ replaceList "contact".data "view_ad".data l := by
  show replaceList _ _ ('h' :: 't' :: 't' :: 'p' :: 's' :: ':' :: l) = _
  rw [replaceList_step 'h' _ (listPre_contact_ne _ _ (by decide)),
    replaceList_step 't' _ (listPre_contact_ne _ _ (by decide)),
    replaceList_step 't' _ (listPre_contact_ne _ _ (by decide)),
    replaceList_step 'p' _ (listPre_contact_ne _ _ (by decide)),
    replaceList_step 's' _ (listPre_contact_ne _ _ (by decide)),
    replaceList_step ':' _ (listPre_contact_ne _ _ (by decide))]
  rfl

/-- Replacement commutes with prepending the base URL
`https://swap.qth.com` (whose only `c` starts `com`, not `contact`). -/
theorem replaceList_base (l : List Char) :
    replaceList "contact".data "view_ad".data ("https://swap.qth.com".data ++ l) =
      "https://swap.qth.com".data ++ replaceList "contact".data "view_ad".data l := by
  show replaceList _ _
      ('h' :: 't' :: 't' :: 'p' :: 's' :: ':' :: '/' :: '/' :: 's' :: 'w' :: 'a' ::
        'p' :: '.' :: 'q' :: 't' :: 'h' :: '.' :: 'c' :: 'o' :: 'm' :: l) = _
  rw [replaceList_step 'h' _ (listPre_contact_ne _ _ (by decide)),
    replaceList_step 't' _ (listPre_contact_ne _ _ (by decide)),
    replaceList_step 't' _ (listPre_contact_ne _ _ (by decide)),
    replaceList_step 'p' _ (listPre_contact_ne _ _ (by decide)),
    replaceList_step 's' _ (listPre_contact_ne _ _ (by decide)),
    replaceList_step ':' _ (listPre_contact_ne _ _ (by decide)),
    replaceList_step '/' _ (listPre_contact_ne _ _ (by decide)),
    replaceList_step '/' _ (listPre_contact_ne _ _ (by decide)),
    replaceList_step 's' _ (listPre_contact_ne _ _ (by decide)),
    replaceList_step 'w' _ (listPre_contact_ne _ _ (by decide)),
    replaceList_step 'a' _ (listPre_contact_ne _ _ (by decide)),
    replaceList_step 'p' _ (listPre_contact_ne _ _ (by decide)),
    replaceList_step '.' _ (listPre_contact_ne _ _ (by decide)),
    replaceList_step 'q' _ (listPre_contact_ne _ _ (by decide)),
    replaceList_step 't' _ (listPre_contact_ne _ _ (by decide)),
    replaceList_step 'h' _ (listPre_contact_ne _ _ (by decide)),
    replaceList_step '.' _ (listPre_contact_ne _ _ (by decide)),
    replaceList_step 'c' _ (listPre_contact_com _),
    replaceList_step 'o' _ (listPre_contact_ne _ _ (by decide)),
    replaceList_step 'm' _ (listPre_contact_ne _ _ (by decide))]
  rfl

/-- Auxiliary: replacement commutes with prepending `https://`. -/
theorem replaceList_https_slashes (l : List Char) :
    replaceList "contact".data "view_ad".data ("https://".data ++ l) =
      "https://".data ++ replaceList "contact".data "view_ad".data l := by
  show replaceList "contact".data "view_ad".data
      ("https:".data ++ ('/' :: '/' :: l)) = _
  rw [replaceList_https_colon,
    replaceList_step '/' _ (listPre_contact_ne _ _ (by decide)),
    replaceList_step '/' _ (listPre_contact_ne _ _ (by decide))]
  rfl

/-- A string whose data is non-empty is not the empty string. -/
theorem str_ne_empty_of_data {s : String} (h : s.data ≠ []) : s ≠ "" := by
  intro he
  exact h (by rw [he])

/-- Central commutation: resolving a reference against the base URL and
then substituting `contact` → `view_ad` agrees with substituting first and
resolving afterwards.  This is what makes `view_url` the plain textual
substitution image of `contact_url`. -/
theorem urljoin_replace_comm (u : String) :
    urljoin base_url (strReplace u "contact" "view_ad") =
      strReplace (urljoin base_url u) "contact" "view_ad" := by
  by_cases h1 : strStarts u "http://" = true
  · -- u carries the http scheme; both sides are the substituted u
    obtain ⟨v, hv⟩ := listPre_exists "http://".data u.data h1
    have hR : (strReplace u "contact" "view_ad").data =
        "http://".data ++ replaceList "contact".data "view_ad".data v := by
      show replaceList "contact".data "view_ad".data u.data = _
      rw [hv, replaceList_http]
    have hs1 : strStarts (strReplace u "contact" "view_ad") "http://" = true := by
      show listPre "http://".data (strReplace u "contact" "view_ad").data = true
      rw [hR]
      exact listPre_append_self _ _
    rw [urljoin, if_pos (by rw [hs1]; simp), urljoin, if_pos (by rw [h1]; simp)]
  · have h1f : strStarts u "http://" = false := by simpa using h1
    by_cases h2 : strStarts u "https://" = true
    · -- u carries the https scheme
      obtain ⟨v, hv⟩ := listPre_exists "https://".data u.data h2
      have hR : (strReplace u "contact" "view_ad").data =
          "https://".data ++ replaceList "contact".data "view_ad".data v := by
        show replaceList "contact".data "view_ad".data u.data = _
        rw [hv, replaceList_https_slashes]
      have hs2 : strStarts (strReplace u "contact" "view_ad") "https://" = true := by
        show listPre "https://".data (strReplace u "contact" "view_ad").data = true
        rw [hR]
        exact listPre_append_self _ _
      rw [urljoin, if_pos (by rw [hs2]; simp), urljoin, if_pos (by rw [h2]; simp)]
    · have h2f : strStarts u "https://" = false := by simpa using h2
      by_cases h3 : strStarts u "//" = true
      · -- protocol-relative reference
        obtain ⟨v, hv⟩ := listPre_exists "//".data u.data h3
        have hv' : u.data = '/' :: '/' :: v := hv
        have hR : (strReplace u "contact" "view_ad").data =
            '/' :: '/' :: replaceList "contact".data "view_ad".data v := by
          show replaceList "contact".data "view_ad".data u.data = _
          rw [hv', replaceList_step '/' _ (listPre_contact_ne _ _ (by decide)),
            replaceList_step '/' _ (listPre_contact_ne _ _ (by decide))]
        have hc1 : strStarts (strReplace u "contact" "view_ad") "http://" = false := by
          show listPre "http://".data (strReplace u "contact" "view_ad").data = false
          rw [hR]
          exact listPre_cons_ne _ _ (by decide)
        have hc2 : strStarts (strReplace u "contact" "view_ad") "https://" = false := by
          show listPre "https://".data (strReplace u "contact" "view_ad").data = false
          rw [hR]
          exact listPre_cons_ne _ _ (by decide)
        have hc3 : strStarts (strReplace u "contact" "view_ad") "//" = true := by
          show listPre "//".data (strReplace u "contact" "view_ad").data = true
          rw [hR, show "//".data = '/' :: '/' :: [] from rfl, listPre_cons_eq,
            listPre_cons_eq]
          rfl
        rw [urljoin, if_neg (by rw [hc1, hc2]; simp), if_pos (by rw [hc3]),
          urljoin, if_neg (by rw [h1f, h2f]; simp), if_pos (by rw [h3])]
        apply strExt
        rw [String.data_append]
        show "https:".data ++ (strReplace u "contact" "view_ad").data =
          replaceList "contact".data "view_ad".data ("https:" ++ u).data
        rw [String.data_append, replaceList_https_colon]
        rfl
      · have h3f : strStarts u "//" = false := by simpa using h3
        by_cases h4 : u = ""
        · -- empty reference: both sides are the (substitution-free) base
          subst h4
          have hRe : strReplace "" "contact" "view_ad" = "" := by
            apply strExt
            show replaceList "contact".data "view_ad".data [] = []
            rw [replaceList_nil]
          have hbase : strReplace base_url "contact" "view_ad" = base_url := by
            apply strExt
            show replaceList "contact".data "view_ad".data
                "https://swap.qth.com".data = base_url.data
            rw [show "https://swap.qth.com".data =
                "https://swap.qth.com".data ++ ([] : List Char) by simp,
              replaceList_base, replaceList_nil]
            simp [base_url]
          rw [hRe, urljoin, if_neg (by decide), if_neg (by decide), if_pos rfl, hbase]
        · by_cases h5 : strStarts u "/" = true
          · -- root-relative reference
            obtain ⟨v, hv⟩ := listPre_exists "/".data u.data h5
            have hv' : u.data = '/' :: v := hv
            have hvns : listPre ['/'] v = false := by
              have h3l : listPre "//".data u.data = false := h3f
              rw [hv', show "//".data = '/' :: '/' :: [] from rfl,
                listPre_cons_eq] at h3l
              exact h3l
            have hR : (strReplace u "contact" "view_ad").data =
                '/' :: replaceList "contact".data "view_ad".data v := by
              show replaceList "contact".data "view_ad".data u.data = _
              rw [hv', replaceList_step '/' _ (listPre_contact_ne _ _ (by decide))]
            have hc1 : strStarts (strReplace u "contact" "view_ad") "http://" = false := by
              show listPre "http://".data (strReplace u "contact" "view_ad").data = false
              rw [hR]
              exact listPre_cons_ne _ _ (by decide)
            have hc2 : strStarts (strReplace u "contact" "view_ad") "https://" = false := by
              show listPre "https://".data (strReplace u "contact" "view_ad").data = false
              rw [hR]
              exact listPre_cons_ne _ _ (by decide)
            have hc3 : strStarts (strReplace u "contact" "view_ad") "//" = false := by
              show listPre "//".data (strReplace u "contact" "view_ad").data = false
              rw [hR, show "//".data = '/' :: '/' :: [] from rfl, listPre_cons_eq]
              cases hq : listPre ['/'] (replaceList "contact".data "view_ad".data v)
              · rfl
              · exfalso
                have hrefl := listPre_reflect v ['/'] (by decide) hq
                rw [hvns] at hrefl
                exact absurd hrefl (by simp)
            have hcne : strReplace u "contact" "view_ad" ≠ "" := by
              apply str_ne_empty_of_data
              rw [hR]
              simp
            have hc4 : strStarts (strReplace u "contact" "view_ad") "/" = true := by
              show listPre "/".data (strReplace u "contact" "view_ad").data = true
              rw [hR, show "/".data = '/' :: [] from rfl, listPre_cons_eq]
              rfl
            rw [urljoin, if_neg (by rw [hc1, hc2]; simp), if_neg (by rw [hc3]; simp),
              if_neg hcne, if_pos (by rw [hc4]),
              urljoin, if_neg (by rw [h1f, h2f]; simp), if_neg (by rw [h3f]; simp),
              if_neg h4, if_pos (by rw [h5])]
            apply strExt
            rw [String.data_append, hR]
            show "https://swap.qth.com".data ++
                ('/' :: replaceList "contact".data "view_ad".data v) =
              replaceList "contact".data "view_ad".data (base_url ++ u).data
            rw [String.data_append,
              show base_url.data = "https://swap.qth.com".data from rfl,
              replaceList_base, hv',
              replaceList_step '/' _ (listPre_contact_ne _ _ (by decide))]
          · -- plain relative reference
            have h5f : strStarts u "/" = false := by simpa using h5
            have hflip : ∀ t : List Char, (∀ ch ∈ t, ch ≠ 'v') →
                listPre t u.data = false →
                listPre t (replaceList "contact".data "view_ad".data u.data) = false := by
              intro t hch hfalse
              cases hq : listPre t (replaceList "contact".data "view_ad".data u.data)
              · rfl
              · have hrefl := listPre_reflect u.data t hch hq
                rw [hfalse] at hrefl
                exact absurd hrefl (by simp)
            have hdne : u.data ≠ [] := by
              intro hd
              exact h4 (strExt (by rw [hd]))
            have hRne : replaceList "contact".data "view_ad".data u.data ≠ [] :=
              replaceList_contact_ne_nil _ hdne
            have hc1 : strStarts (strReplace u "contact" "view_ad") "http://" = false :=
              hflip _ (by decide) h1f
            have hc2 : strStarts (strReplace u "contact" "view_ad") "https://" = false :=
              hflip _ (by decide) h2f
            have hc3 : strStarts (strReplace u "contact" "view_ad") "//" = false :=
              hflip _ (by decide) h3f
            have hc5 : strStarts (strReplace u "contact" "view_ad") "/" = false :=
              hflip _ (by decide) h5f
            have hcne : strReplace u "contact" "view_ad" ≠ "" :=
              str_ne_empty_of_data hRne
            rw [urljoin, if_neg (by rw [hc1, hc2]; simp), if_neg (by rw [hc3]; simp),
              if_neg hcne, if_neg (by rw [hc5]; simp),
              urljoin, if_neg (by rw [h1f, h2f]; simp), if_neg (by rw [h3f]; simp),
              if_neg h4, if_neg (by rw [h5f]; simp)]
            apply strExt
            rw [String.data_append, String.data_append]
            show base_url.data ++ "/".data ++
                replaceList "contact".data "view_ad".data u.data =
              replaceList "contact".data "view_ad".data (base_url ++ "/" ++ u).data
            rw [String.data_append, String.data_append]
            simp only [List.append_assoc]
            rw [show base_url.data = "https://swap.qth.com".data from rfl,
              show ("/".data : List Char) ++ u.data = '/' :: u.data from rfl,
              replaceList_base,
              replaceList_step '/' _ (listPre_contact_ne _ _ (by decide))]
            rfl

/-- A string append whose left part has characters is not empty. -/
theorem str_append_ne_empty_left (s t : String) (h : s.data ≠ []) :
    s ++ t ≠ "" := by
  apply str_ne_empty_of_data
  rw [String.data_append]
  intro hh
  exact h (List.append_eq_nil.mp hh).1

/-- Resolution against the base URL never yields the empty string. -/
theorem urljoin_base_ne_empty (u : String) : urljoin base_url u ≠ "" := by
  rw [urljoin]
  by_cases h1 : (strStarts u "http://" || strStarts u "https://") = true
  · rw [if_pos h1]
    intro he
    rw [he] at h1
    exact absurd h1 (by decide)
  · rw [if_neg h1]
    by_cases h2 : strStarts u "//" = true
    · rw [if_pos h2]
      exact str_append_ne_empty_left _ _ (by decide)
    · rw [if_neg (by rw [show strStarts u "//" = false by simpa using h2]; simp)]
      by_cases h3 : u = ""
      · rw [if_pos h3]
        decide
      · rw [if_neg h3]
        by_cases h4 : strStarts u "/" = true
        · rw [if_pos h4]
          exact str_append_ne_empty_left _ _ (by decide)
        · rw [if_neg (by rw [show strStarts u "/" = false by simpa using h4]; simp)]
          exact str_append_ne_empty_left _ _ (by decide)

/-- Everything `mkListing` guarantees about a successfully built listing:
the pending title is installed verbatim; `contact_url` and `view_url` are
the found contact link's `href` resolved against the base URL, before and
after the `contact` → `view_ad` substitution; consequently `view_url` is
the substitution image of `contact_url`; `view_url` is non-empty; and
`photo_url` is present exactly when a picture link was found. -/
theorem mkListing_spec (t0 : String) (c : Node) (l : Listing)
    (h : mkListing t0 c = some l) :
    l.title = t0 ∧
    (∃ href, findContact c ≠ none ∧
      l.contact_url = urljoin base_url href ∧
      l.view_url = urljoin base_url (strReplace href "contact" "view_ad")) ∧
    l.view_url = strReplace l.contact_url "contact" "view_ad" ∧
    l.view_url ≠ "" ∧
    (l.photo_url.isSome ↔ (findPic c).isSome) := by
  rw [mkListing] at h
  rcases hmt : metaTimestamps (firstTwoLines c.textAll) with _ | pu
  · rw [hmt] at h
    simp at h
  · obtain ⟨pub, upd⟩ := pu
    rw [hmt] at h
    simp only [Option.bind_eq_bind, Option.some_bind] at h
    rcases hfc : findContact c with _ | contact
    · rw [hfc] at h
      simp at h
    · rw [hfc] at h
      simp only [Option.bind_eq_bind, Option.some_bind] at h
      rcases hhr : contact.getAttr "href" with _ | href
      · rw [hhr] at h
        simp at h
      · rw [hhr] at h
        simp only [Option.bind_eq_bind, Option.some_bind] at h
        rcases hfp : findPic c with _ | p
        · rw [hfp] at h
          simp only [Option.some_bind] at h
          obtain rfl : _ = l := Option.some.inj h
          refine ⟨rfl, ⟨href, by simp, rfl, rfl⟩, ?_, ?_, ?_⟩
          · exact urljoin_replace_comm href
          · exact urljoin_base_ne_empty _
          · simp [hfp]
        · rw [hfp] at h
          rcases hph : p.getAttr "href" with _ | ph
          · simp only [hph] at h
            simp at h
          · simp only [hph] at h
            obtain rfl : _ = l := Option.some.inj h
            refine ⟨rfl, ⟨href, by simp, rfl, rfl⟩, ?_, ?_, ?_⟩
            · exact urljoin_replace_comm href
            · exact urljoin_base_ne_empty _
            · simp [hfp]

/-- Master characterisation of a successful run of the `listings_from_dl`
child loop: the listings correspond one-to-one, in order, to the `dd`
children, and the `i`-th listing is built by `mkListing` from the `i`-th
`dd` with a pending title that is the stripped text of the closest
preceding `dt` (or the inherited pending title when no `dt` precedes). -/
theorem listingsAux_spec :
    ∀ (cs : List Node) (t : Option String) (L : List Listing),
      listingsAux t cs = some L →
      L.length = (cs.filter (fun x => x.tagName == "dd")).length ∧
      ∀ i (hi : i < L.length), ∃ pre c post t0,
        cs = pre ++ c :: post ∧ c.tagName = "dd" ∧
        (pre.filter (fun x => x.tagName == "dd")).length = i ∧
        mkListing t0 c = some (L.get ⟨i, hi⟩) ∧
        ((∃ tn, (pre.filter (fun x => x.tagName == "dt")).getLast? = some tn ∧
            t0 = (strip tn.textAll)) ∨
          ((pre.filter (fun x => x.tagName == "dt")) = [] ∧ t = some t0)) := by
  intro cs
  induction cs with
  | nil =>
    intro t L h
    simp only [listingsAux] at h
    obtain rfl : L = [] := (Option.some.inj h).symm
    exact ⟨by simp, fun i hi => absurd hi (by simp)⟩
  | cons x rest ih =>
    intro t L h
    by_cases hdt : x.tagName = "dt"
    · rw [listingsAux, if_pos hdt] at h
      obtain ⟨hlen, hidx⟩ := ih (some (strip x.textAll)) L h
      refine ⟨by rw [hlen]; simp [List.filter_cons, hdt], ?_⟩
      intro i hi
      obtain ⟨pre, c, post, t0, hsplit, hc, hcount, hmk, hor⟩ := hidx i hi
      refine ⟨x :: pre, c, post, t0, by rw [hsplit]; rfl, hc,
        by simp [List.filter_cons, hdt, hcount], hmk, ?_⟩
      left
      rcases hor with ⟨tn, hlast, ht0⟩ | ⟨hnil, hteq⟩
      · refine ⟨tn, ?_, ht0⟩
        simp only [List.filter_cons, hdt]
        simp only [beq_self_eq_true, if_true]
        rw [List.getLast?_cons, hlast]
        simp
      · refine ⟨x, ?_, (Option.some.inj hteq).symm⟩
        simp only [List.filter_cons, hdt]
        simp only [beq_self_eq_true, if_true]
        rw [hnil]
        rfl
    · by_cases hdd : x.tagName = "dd"
      · rw [listingsAux, if_neg hdt, if_pos hdd] at h
        rcases ht : t with _ | t0
        · rw [ht] at h
          simp at h
        · rw [ht] at h
          simp only [Option.bind_eq_bind, Option.some_bind] at h
          rcases hmk : mkListing t0 x with _ | l
          · rw [hmk] at h
            simp at h
          · rw [hmk] at h
            simp only [Option.bind_eq_bind, Option.some_bind] at h
            rcases hrest : listingsAux (some t0) rest with _ | L'
            · rw [hrest] at h
              simp at h
            · rw [hrest] at h
              simp only [Option.bind_eq_bind, Option.some_bind] at h
              obtain rfl : l :: L' = L := Option.some.inj h
              obtain ⟨hlen, hidx⟩ := ih (some t0) L' hrest
              refine ⟨by simp [List.filter_cons, hdd, hlen], ?_⟩
              intro i hi
              match i with
              | 0 =>
                exact ⟨[], x, rest, t0, rfl, hdd, by simp, by simpa using hmk,
                  Or.inr ⟨by simp, rfl⟩⟩
              | i' + 1 =>
                have hi' : i' < L'.length := by simpa using hi
                obtain ⟨pre, c, post, t0', hsplit, hc, hcount, hmk', hor⟩ :=
                  hidx i' hi'
                refine ⟨x :: pre, c, post, t0', by rw [hsplit]; rfl, hc,
                  by simp [List.filter_cons, hdd, hcount], by simpa using hmk', ?_⟩
                rcases hor with ⟨tn, hlast, ht0⟩ | ⟨hnil, hteq⟩
                · exact Or.inl ⟨tn, by simpa [List.filter_cons, hdt] using hlast, ht0⟩
                · exact Or.inr ⟨by simpa [List.filter_cons, hdt] using hnil, hteq⟩
      · rw [listingsAux, if_neg hdt, if_neg hdd] at h
        obtain ⟨hlen, hidx⟩ := ih t L h
        refine ⟨by rw [hlen]; simp [List.filter_cons, hdd], ?_⟩
        intro i hi
        obtain ⟨pre, c, post, t0, hsplit, hc, hcount, hmk, hor⟩ := hidx i hi
        refine ⟨x :: pre, c, post, t0, by rw [hsplit]; rfl, hc,
          by simp [List.filter_cons, hdd, hcount], hmk, ?_⟩
        rcases hor with ⟨tn, hlast, ht0⟩ | ⟨hnil, hteq⟩
        · exact Or.inl ⟨tn, by simpa [List.filter_cons, hdt] using hlast, ht0⟩
        · exact Or.inr ⟨by simpa [List.filter_cons, hdt] using hnil, hteq⟩

/-- A `dd` with no "Click to Contact" link makes `mkListing` fail (the code
dereferences `contact_url["href"]` on `None`). -/
theorem mkListing_none_of_contactless (t0 : String) (dd : Node)
    (h : findContact dd = none) : mkListing t0 dd = none := by
  rw [mkListing]
  rcases hmt : metaTimestamps (firstTwoLines dd.textAll) with _ | pu
  · simp
  · obtain ⟨pub, upd⟩ := pu
    simp only [Option.bind_eq_bind, Option.some_bind]
    rw [h]
    simp

/-- Any `dd` child lacking a contact link poisons the whole child loop,
whatever the pending title. -/
theorem listingsAux_none_of_contactless :
    ∀ (cs : List Node) (t : Option String),
      (∃ c ∈ cs, c.tagName = "dd" ∧ findContact c = none) →
      listingsAux t cs = none := by
  intro cs
  induction cs with
  | nil =>
    intro t h
    obtain ⟨c, hm, _⟩ := h
    exact absurd hm (by simp)
  | cons x rest ih =>
    intro t h
    obtain ⟨c, hm, hcdd, hcnone⟩ := h
    rcases List.mem_cons.mp hm with rfl | hm'
    · rw [listingsAux, if_neg (by rw [hcdd]; decide), if_pos hcdd]
      rcases t with _ | t0
      · simp
      · simp only [Option.bind_eq_bind, Option.some_bind]
        rw [mkListing_none_of_contactless t0 _ hcnone]
        simp
    · have hrest : ∀ t', listingsAux t' rest = none :=
        fun t' => ih t' ⟨c, hm', hcdd, hcnone⟩
      by_cases hdt : x.tagName = "dt"
      · rw [listingsAux, if_pos hdt]
        exact hrest _
      · by_cases hdd : x.tagName = "dd"
        · rw [listingsAux, if_neg hdt, if_pos hdd]
          rcases t with _ | t0
          · simp
          · simp only [Option.bind_eq_bind, Option.some_bind]
            rcases hmk : mkListing t0 x with _ | l
            · simp
            · simp only [Option.some_bind]
              rw [hrest]
              simp
        · rw [listingsAux, if_neg hdt, if_neg hdd]
          exact hrest _

/-- A `dd` preceded by no `dt` makes the child loop fail when no title is
pending (the code raises `NameError`: `title` was never assigned). -/
theorem listingsAux_none_of_untitled :
    ∀ (pre : List Node) (c : Node) (post : List Node),
      c.tagName = "dd" → (∀ y ∈ pre, y.tagName ≠ "dt") →
      listingsAux none (pre ++ c :: post) = none := by
  intro pre
  induction pre with
  | nil =>
    intro c post hdd _
    rw [List.nil_append, listingsAux, if_neg (by rw [hdd]; decide), if_pos hdd]
    simp
  | cons y pre' ih =>
    intro c post hdd hnodt
    have hydt : y.tagName ≠ "dt" := hnodt y (by simp)
    rw [List.cons_append, listingsAux, if_neg hydt]
    by_cases hydd : y.tagName = "dd"
    · rw [if_pos hydd]
      simp
    · rw [if_neg hydd]
      exact ih c post hdd (fun z hz => hnodt z (by simp [hz]))

/-- An element of a list's `getLast?` is a member of the list. -/
theorem mem_of_getLast?_eq_some {α : Type} {l : List α} {a : α}
    (h : l.getLast? = some a) : a ∈ l := by
  obtain ⟨hne, heq⟩ :=
    List.mem_getLast?_eq_getLast (Option.mem_def.mpr h)
  rw [heq]
  exact List.getLast_mem hne

/-- C2 (counterexample): a definition list whose only `dt` is
whitespace-only makes `listings_from_dl` succeed with a Listing whose
`title` is the empty string, refuting the claim that every produced
Listing has a non-empty title. -/
theorem listings_empty_title_cex :
    (listings_from_dl [dlBlankTitle]).isSome = true ∧
    ((listings_from_dl [dlBlankTitle]).getD []).map Listing.title = [""] :=
  ⟨rfl, rfl⟩

/-- C2 (amended): every Listing produced by `listings_from_dl` has a
non-empty `view_url`; the `i`-th listing's `photo_url` is present if and
only if its source `dd` (the `i`-th `dd` child of the definition list)
contains a hyperlink whose string is exactly "Click Here to View Picture";
and every listing's title is non-empty provided every `dt` child of the
definition list has non-empty stripped text (without that proviso a
whitespace-only `dt` yields an empty title). -/
theorem listings_from_dl_invariants (d : Node) (dls : List Node)
    (L : List Listing) (h : listings_from_dl (d :: dls) = some L) :
    (∀ l ∈ L, l.view_url ≠ "") ∧
    (∀ i (hi : i < L.length), ∃ pre c post,
      d.childElems = pre ++ c :: post ∧ c.tagName = "dd" ∧
      (pre.filter (fun x => x.tagName == "dd")).length = i ∧
      ((L.get ⟨i, hi⟩).photo_url.isSome ↔ (findPic c).isSome)) ∧
    ((∀ c ∈ d.childElems, c.tagName = "dt" → (strip c.textAll) ≠ "") →
      ∀ l ∈ L, l.title ≠ "") := by
  rw [listings_from_dl] at h
  obtain ⟨hlen, hidx⟩ := listingsAux_spec d.childElems none L h
  refine ⟨?_, ?_, ?_⟩
  · intro l hl
    obtain ⟨⟨i, hi⟩, rfl⟩ := List.mem_iff_get.mp hl
    obtain ⟨pre, c, post, t0, _, _, _, hmk, _⟩ := hidx i hi
    exact (mkListing_spec t0 c _ hmk).2.2.2.1
  · intro i hi
    obtain ⟨pre, c, post, t0, hsplit, hcdd, hcount, hmk, _⟩ := hidx i hi
    exact ⟨pre, c, post, hsplit, hcdd, hcount,
      (mkListing_spec t0 c _ hmk).2.2.2.2⟩
  · intro hdts l hl
    obtain ⟨⟨i, hi⟩, rfl⟩ := List.mem_iff_get.mp hl
    obtain ⟨pre, c, post, t0, hsplit, hcdd, hcount, hmk, hor⟩ := hidx i hi
    have htitle : (L.get ⟨i, hi⟩).title = t0 := (mkListing_spec t0 c _ hmk).1
    rcases hor with ⟨tn, hlast, ht0⟩ | ⟨_, hnone⟩
    · have htn_mem : tn ∈ pre.filter (fun x => x.tagName == "dt") :=
        mem_of_getLast?_eq_some hlast
      have htag : tn.tagName = "dt" := by
        have := (List.mem_filter.mp htn_mem).2
        simpa using this
      have hmem : tn ∈ d.childElems := by
        rw [hsplit]
        exact List.mem_append.mpr (Or.inl (List.mem_of_mem_filter htn_mem))
      rw [htitle, ht0]
      exact hdts tn hmem htag
    · exact absurd hnone (by simp)

/-- Witness for C2 at `dlGood` (all `dt`s have non-blank text). -/
theorem listings_from_dl_invariants_witness :
    listings_from_dl [dlGood] = some dlGoodListings ∧
    (∀ c ∈ dlGood.childElems, c.tagName = "dt" → (strip c.textAll) ≠ "") ∧
    (∀ l ∈ dlGoodListings, l.title ≠ "") :=
  ⟨rfl, by decide,
    (listings_from_dl_invariants dlGood [] dlGoodListings rfl).2.2 (by decide)⟩

/-- C4: every Listing produced from a `dd` has `view_url` equal to
`contact_url` with every occurrence of the substring `contact` textually
replaced by `view_ad` — both URLs being the contact link's `href` resolved
against the site's base URL (before and after the substitution
respectively). -/
theorem listings_view_url_substitution (d : Node) (dls : List Node)
    (L : List Listing) (h : listings_from_dl (d :: dls) = some L) :
    ∀ l ∈ L, l.view_url = strReplace l.contact_url "contact" "view_ad" ∧
      ∃ href, l.contact_url = urljoin base_url href ∧
        l.view_url = urljoin base_url (strReplace href "contact" "view_ad") := by
  rw [listings_from_dl] at h
  obtain ⟨hlen, hidx⟩ := listingsAux_spec d.childElems none L h
  intro l hl
  obtain ⟨⟨i, hi⟩, rfl⟩ := List.mem_iff_get.mp hl
  obtain ⟨pre, c, post, t0, _, _, _, hmk, _⟩ := hidx i hi
  obtain ⟨_, ⟨href, _, hcu, hvu⟩, hsub, _, _⟩ := mkListing_spec t0 c _ hmk
  exact ⟨hsub, href, hcu, hvu⟩

/-- Witness for C4 at `dlGood`. -/
theorem listings_view_url_substitution_witness :
    listings_from_dl [dlGood] = some dlGoodListings ∧
    ∀ l ∈ dlGoodListings,
      l.view_url = strReplace l.contact_url "contact" "view_ad" :=
  ⟨rfl, fun l hl =>
    ((listings_view_url_substitution dlGood [] dlGoodListings rfl) l hl).1⟩

/-- C9: a `dd` child with no hyperlink whose string is exactly
"Click to Contact" makes `listings_from_dl` fail (rather than skip the
entry or leave `contact_url` absent): the code subscripts the absent
link. -/
theorem listings_from_dl_requires_contact (d : Node) (dls : List Node)
    (h : ∃ c ∈ d.childElems, c.tagName = "dd" ∧ findContact c = none) :
    listings_from_dl (d :: dls) = none := by
  rw [listings_from_dl]
  exact listingsAux_none_of_contactless d.childElems none h

/-- Witness for C9 at `dlNoContact`. -/
theorem listings_from_dl_requires_contact_witness :
    (∃ c ∈ dlNoContact.childElems, c.tagName = "dd" ∧ findContact c = none) ∧
    listings_from_dl [dlNoContact] = none :=
  ⟨⟨ddNoContact, List.mem_cons_of_mem _ (List.mem_cons_self _ _), rfl, rfl⟩,
    listings_from_dl_requires_contact dlNoContact []
      ⟨ddNoContact, List.mem_cons_of_mem _ (List.mem_cons_self _ _), rfl, rfl⟩⟩

/-- C10: titles come from the most recent preceding `dt`: when some `dd`
child has no `dt` anywhere before it, `listings_from_dl` fails (the title
variable was never assigned); on success there is exactly one Listing per
`dd` child (so consecutive `dt`s contribute no Listing of their own) and
the `i`-th listing's title is the stripped text of the last `dt` before
the `i`-th `dd`. -/
theorem listings_title_discipline (d : Node) (dls : List Node) :
    ((∃ pre c post, d.childElems = pre ++ c :: post ∧ c.tagName = "dd" ∧
        ∀ y ∈ pre, y.tagName ≠ "dt") →
      listings_from_dl (d :: dls) = none) ∧
    (∀ L, listings_from_dl (d :: dls) = some L →
      L.length = (d.childElems.filter (fun x => x.tagName == "dd")).length ∧
      ∀ i (hi : i < L.length), ∃ pre c post,
        d.childElems = pre ++ c :: post ∧ c.tagName = "dd" ∧
        (pre.filter (fun x => x.tagName == "dd")).length = i ∧
        ∃ tn, (pre.filter (fun x => x.tagName == "dt")).getLast? = some tn ∧
          (L.get ⟨i, hi⟩).title = (strip tn.textAll)) := by
  constructor
  · intro ⟨pre, c, post, hsplit, hcdd, hnodt⟩
    rw [listings_from_dl, hsplit]
    exact listingsAux_none_of_untitled pre c post hcdd hnodt
  · intro L h
    rw [listings_from_dl] at h
    obtain ⟨hlen, hidx⟩ := listingsAux_spec d.childElems none L h
    refine ⟨hlen, ?_⟩
    intro i hi
    obtain ⟨pre, c, post, t0, hsplit, hcdd, hcount, hmk, hor⟩ := hidx i hi
    have htitle : (L.get ⟨i, hi⟩).title = t0 := (mkListing_spec t0 c _ hmk).1
    rcases hor with ⟨tn, hlast, ht0⟩ | ⟨_, hnone⟩
    · exact ⟨pre, c, post, hsplit, hcdd, hcount, tn, hlast, by rw [htitle, ht0]⟩
    · exact absurd hnone (by simp)

/-- Witness for C10: a `dd` with no preceding `dt` fails, and on the
well-formed `dlGood` there are exactly as many listings as `dd`s. -/
theorem listings_title_discipline_witness :
    listings_from_dl [dlUntitled] = none ∧
    dlGoodListings.length = 2 :=
  ⟨(listings_title_discipline dlUntitled []).1
      ⟨[], ddGood, [], rfl, rfl, by simp⟩,
    by
      have hspec := (listings_title_discipline dlGood []).2 dlGoodListings rfl
      rw [hspec.1]
      rfl⟩

/-- Unfolding of `metaTimestamps` on a successful regex search. -/
theorem metaTimestamps_eq_some (s : String) (g : MetaGroups)
    (hs : re_entry_metadata_search s = some g) :
    metaTimestamps s =
      ((if g.date_created = "" then (some none : Option (Option DT))
        else (strptimeMDY g.date_created).map some).bind fun published =>
        ((match g.date_modified with
          | none => (some none : Option (Option DT))
          | some dm =>
            if dm = "" then some none
            else (strptimeMDY dm).map some).bind fun updated =>
          some (published, updated))) := by
  rw [metaTimestamps, hs]

/-- C5: on the sample description the regex yields a `published` timestamp
of 2024-01-15 (UTC midnight) and no `updated`; with a "Modified on
02/20/24" clause the `updated` timestamp is 2024-02-20; when the pattern
does not match both timestamps are absent; and when a date group is empty
or missing the corresponding timestamp is absent. -/
theorem re_entry_metadata_timestamps :
    metaTimestamps
        "Listing #123 - Submitted on 01/15/24 by Callsign W1ABC - IP: 1.2.3.4" =
      some (some ⟨2024, 1, 15⟩, none) ∧
    metaTimestamps
        "Listing #123 - Submitted on 01/15/24 by Callsign W1ABC, Modified on 02/20/24 - IP: 1.2.3.4" =
      some (some ⟨2024, 1, 15⟩, some ⟨2024, 2, 20⟩) ∧
    (∀ s, re_entry_metadata_search s = none →
      metaTimestamps s = some (none, none)) ∧
    (∀ s g r, re_entry_metadata_search s = some g → metaTimestamps s = some r →
      (g.date_modified = none → r.2 = none) ∧
      (g.date_created = "" → r.1 = none)) := by
  refine ⟨rfl, rfl, ?_, ?_⟩
  · intro s h
    rw [metaTimestamps, h]
  · intro s g r hs hr
    have hchain := (metaTimestamps_eq_some s g hs).symm.trans hr
    constructor
    · intro hdm
      rw [hdm] at hchain
      rcases hpub : (if g.date_created = "" then (some none : Option (Option DT))
          else (strptimeMDY g.date_created).map some) with _ | p
      · rw [hpub] at hchain
        simp at hchain
      · rw [hpub, Option.some_bind] at hchain
        have hchain2 : ((some none : Option (Option DT)).bind fun updated =>
            some (p, updated)) = some r := hchain
        rw [Option.some_bind] at hchain2
        obtain rfl : (p, (none : Option DT)) = r := Option.some.inj hchain2
        rfl
    · intro hdc
      rw [hdc, if_pos rfl, Option.some_bind] at hchain
      rcases hdm2 : g.date_modified with _ | dm
      · rw [hdm2] at hchain
        have hchain2 : ((some none : Option (Option DT)).bind fun updated =>
            some ((none : Option DT), updated)) = some r := hchain
        rw [Option.some_bind] at hchain2
        obtain rfl : ((none : Option DT), (none : Option DT)) = r :=
          Option.some.inj hchain2
        rfl
      · rw [hdm2] at hchain
        have hchain2 : ((if dm = "" then (some none : Option (Option DT))
            else (strptimeMDY dm).map some).bind fun updated =>
            some ((none : Option DT), updated)) = some r := hchain
        rcases hx : (if dm = "" then (some none : Option (Option DT))
            else (strptimeMDY dm).map some) with _ | uu
        · rw [hx] at hchain2
          simp at hchain2
        · rw [hx, Option.some_bind] at hchain2
          obtain rfl : ((none : Option DT), uu) = r := Option.some.inj hchain2
          rfl

/-- Witness for C5: the general clauses applied to a non-matching string
and to the sample match without a modification date. -/
theorem re_entry_metadata_timestamps_witness :
    (re_entry_metadata_search "hello" = none ∧
      metaTimestamps "hello" = some (none, none)) ∧
    (re_entry_metadata_search
        "Listing #123 - Submitted on 01/15/24 by Callsign W1ABC - IP: 1.2.3.4" =
      some ⟨"123", "01/15/24", "W1ABC", none, none, "1.2.3.4"⟩ ∧
      ((some (⟨2024, 1, 15⟩ : DT), (none : Option DT)) :
          Option DT × Option DT).2 = none) :=
  ⟨⟨rfl, re_entry_metadata_timestamps.2.2.1 "hello" rfl⟩,
    ⟨rfl,
      (re_entry_metadata_timestamps.2.2.2
        "Listing #123 - Submitted on 01/15/24 by Callsign W1ABC - IP: 1.2.3.4"
        ⟨"123", "01/15/24", "W1ABC", none, none, "1.2.3.4"⟩
        (some ⟨2024, 1, 15⟩, none) rfl rfl).1 rfl⟩⟩

/-- C8: the post-selection parsing of `simple_search` coincides with that
of `_get_listings_for_category` (identical per-document listing parsing on
the same selected definition lists), and `simple_search` issues exactly one
request, with no pagination loop. -/
theorem simple_search_refines_category_parsing :
    (∀ dls : List Node, search_parse_dls dls = category_parse_dls dls) ∧
    (∀ q, simple_search_requests q = [simple_search_request q] ∧
      (simple_search_requests q).length = 1) ∧
    (∀ (fetch : Request → Node) (q : String),
      simple_search fetch q =
        search_parse_dls (select_table_dl (fetch (simple_search_request q)))) :=
  ⟨fun _ => rfl, fun _ => ⟨rfl, rfl⟩, fun _ _ => rfl⟩

/-- `linksOf` only ever fails with `keyError`. -/
theorem linksOf_error_key :
    ∀ (links : List Node) (e : QError), linksOf links = .error e → e = .keyError := by
  intro links
  induction links with
  | nil =>
    intro e h
    simp [linksOf] at h
  | cons a rest ih =>
    intro e h
    rw [linksOf] at h
    rcases hh : a.getAttr "href" with _ | href
    · rw [hh] at h
      obtain rfl : QError.keyError = e := by
        have h' : (Except.error QError.keyError :
            Except QError (List (String × Category))) = .error e := h
        exact Except.error.inj h'
      rfl
    · rw [hh] at h
      rcases hr : linksOf rest with e' | rs
      · rw [hr] at h
        have h' : (Except.error e' :
            Except QError (List (String × Category))) = .error e := h
        obtain rfl := Except.error.inj h'
        exact ih e' hr
      · rw [hr] at h
        have h' : (Except.ok ((strip a.textAll,
            Category.mk href (strip a.textAll)) :: rs) :
            Except QError (List (String × Category))) = .error e := h
        exact absurd h' (by simp)

/-- When every link has an `href`, `linksOf` succeeds and returns the pairs
that `linkPairs` describes. -/
theorem linksOf_ok_of_hrefs :
    ∀ links : List Node, (∀ a ∈ links, (a.getAttr "href").isSome) →
      linksOf links = .ok (links.filterMap (fun a => (a.getAttr "href").map
        (fun h => (strip a.textAll, Category.mk h (strip a.textAll))))) := by
  intro links
  induction links with
  | nil => intro _; rfl
  | cons a rest ih =>
    intro hall
    rw [linksOf]
    rcases hh : a.getAttr "href" with _ | href
    · have := hall a (by simp)
      rw [hh] at this
      simp at this
    · rw [ih (fun x hx => hall x (by simp [hx]))]
      rw [List.filterMap_cons, hh]
      rfl

/-- `collectRows` only ever fails with `keyError`. -/
theorem collectRows_error_key :
    ∀ (rows : List Node) (e : QError), collectRows rows = .error e →
      e = .keyError := by
  intro rows
  induction rows with
  | nil =>
    intro e h
    rw [collectRows] at h
    exact absurd h (by simp)
  | cons r rs ih =>
    intro e h
    match r with
    | .text s =>
      rw [collectRows] at h
      exact ih e h
    | .elem t a cs =>
      rw [collectRows] at h
      by_cases hqs : rowIsQuickSearch (.elem t a cs) = true
      · rw [if_pos hqs] at h
        exact absurd h (by simp)
      · rw [if_neg hqs] at h
        rcases hle : rowLinksE (.elem t a cs) with e' | ls
        · rw [hle] at h
          obtain rfl := Except.error.inj h
          exact linksOf_error_key _ e' hle
        · rw [hle] at h
          rcases hcr : collectRows rs with e'' | rest
          · rw [hcr] at h
            obtain rfl := Except.error.inj h
            exact ih e'' hcr
          · rw [hcr] at h
            exact absurd h (by simp)

/-- The sibling walk is the collected link pairs folded into the starting
mapping. -/
theorem walkRows_map :
    ∀ (rows : List Node) (d : Cats),
      walkRows d rows = (collectRows rows).map (fun ls => ls.foldl catsUpd d) := by
  intro rows
  induction rows with
  | nil => intro d; rfl
  | cons r rs ih =>
    intro d
    match r with
    | .text s =>
      rw [walkRows, collectRows]
      exact ih d
    | .elem t a cs =>
      rw [walkRows, collectRows]
      by_cases hqs : rowIsQuickSearch (.elem t a cs) = true
      · rw [if_pos hqs, if_pos hqs]
        rfl
      · rw [if_neg hqs, if_neg hqs]
        rcases hle : rowLinksE (.elem t a cs) with e | ls
        · rfl
        · show walkRows (ls.foldl catsUpd d) rs =
            ((match collectRows rs with
              | Except.error e => Except.error e
              | Except.ok rest => Except.ok (ls ++ rest) :
                Except QError (List (String × Category)))).map
              (fun ls => ls.foldl catsUpd d)
          rw [ih (ls.foldl catsUpd d)]
          rcases hcr : collectRows rs with e' | rest
          · rfl
          · show Except.ok (rest.foldl catsUpd (ls.foldl catsUpd d)) =
              Except.ok ((ls ++ rest).foldl catsUpd d)
            rw [List.foldl_append]

/-- The sibling walk never raises the structure error (only the anchor
search does). -/
theorem walkRows_not_structure (rows : List Node) (d : Cats) :
    walkRows d rows ≠ .error .structureError := by
  intro h
  rw [walkRows_map] at h
  rcases hcr : collectRows rows with e | ls
  · rw [hcr] at h
    have h' : (Except.error e : Except QError Cats) = .error .structureError := h
    obtain rfl := Except.error.inj h'
    have := collectRows_error_key rows _ hcr
    exact absurd this (by decide)
  · rw [hcr] at h
    have h'' : (Except.ok (ls.foldl catsUpd d) : Except QError Cats) =
        .error .structureError := h
    exact absurd h'' (by simp)

/-- The anchor scan finds a marker cell exactly when `find` (preorder
descendant search) does: both visit the same cells in the same order. -/
theorem anchorList_isSome_eq (m : String) :
    ∀ (n : Nat) (cs sibs : List Node), sizeOf cs ≤ n →
      (anchorList m cs sibs).isSome =
        (findDescList (tdWithStringHas m) cs).isSome := by
  intro n
  induction n using Nat.strong_induction_on with
  | _ n ih =>
    intro cs sibs hsz
    match cs with
    | [] => rfl
    | c :: cs' =>
      have hszc : sizeOf cs' < n := by
        have : sizeOf cs' < sizeOf (c :: cs') := by
          simp only [List.cons.sizeOf_spec]
          omega
        omega
      rw [anchorList, findDescList]
      by_cases hp : tdWithStringHas m c = true
      · match c with
        | .text s =>
          have h1 : anchorNode m (.text s) cs' sibs = some sibs := by
            show (if tdWithStringHas m (Node.text s) = true then some sibs
              else none) = some sibs
            rw [if_pos hp]
          rw [h1, if_pos hp]
          rfl
        | .elem t a gcs =>
          have h1 : anchorNode m (.elem t a gcs) cs' sibs = some sibs := by
            show (if tdWithStringHas m (Node.elem t a gcs) = true then some sibs
              else anchorList m gcs cs') = some sibs
            rw [if_pos hp]
          rw [h1, if_pos hp]
          rfl
      · rw [if_neg hp]
        match c with
        | .text s =>
          have h1 : anchorNode m (.text s) cs' sibs = none := by
            show (if tdWithStringHas m (Node.text s) = true then some sibs
              else none) = none
            rw [if_neg hp]
          have h2 : Node.findDesc (tdWithStringHas m) (.text s) = none := by
            rw [Node.findDesc]
          rw [h1, h2]
          show (anchorList m cs' sibs).isSome =
            (findDescList (tdWithStringHas m) cs').isSome
          exact ih (sizeOf cs') hszc cs' sibs le_rfl
        | .elem t a gcs =>
          have hszg : sizeOf gcs < n := by
            have : sizeOf gcs < sizeOf (Node.elem t a gcs :: cs') := by
              simp only [List.cons.sizeOf_spec, Node.elem.sizeOf_spec]
              omega
            omega
          have h1 : anchorNode m (.elem t a gcs) cs' sibs = anchorList m gcs cs' := by
            show (if tdWithStringHas m (Node.elem t a gcs) = true then some sibs
              else anchorList m gcs cs') = anchorList m gcs cs'
            rw [if_neg hp]
          have h2 : Node.findDesc (tdWithStringHas m) (.elem t a gcs) =
              findDescList (tdWithStringHas m) gcs := by
            rw [Node.findDesc]
          rw [h1, h2]
          have hrec := ih (sizeOf gcs) hszg gcs cs' le_rfl
          rcases ha : anchorList m gcs cs' with _ | r
          · rcases hf : findDescList (tdWithStringHas m) gcs with _ | r'
            · show (anchorList m cs' sibs).isSome =
                (findDescList (tdWithStringHas m) cs').isSome
              exact ih (sizeOf cs') hszc cs' sibs le_rfl
            · rw [ha, hf] at hrec
              simp at hrec
          · rcases hf : findDescList (tdWithStringHas m) gcs with _ | r'
            · rw [ha, hf] at hrec
              simp at hrec
            · rfl

/-- Anchor-row search of the whole document succeeds exactly when some
descendant marker cell exists. -/
theorem findAnchor_isSome_eq (m : String) (doc : Node) :
    (findAnchor m doc).isSome =
      (Node.findDesc (tdWithStringHas m) doc).isSome := by
  match doc with
  | .text s => rfl
  | .elem t a cs =>
    rw [findAnchor, Node.findDesc]
    exact anchorList_isSome_eq m (sizeOf cs) cs [] le_rfl

/-- Pointwise value of a fold of `catsUpd` updates: the last update with
the right key wins; otherwise the original mapping is consulted. -/
theorem foldl_catsUpd_apply :
    ∀ (ls : List (String × Category)) (d : Cats) (k : String),
      (ls.foldl catsUpd d) k =
        match (ls.filter (fun p => p.1 == k)).getLast? with
        | some p => some p.2
        | none => d k := by
  intro ls
  induction ls with
  | nil => intro d k; rfl
  | cons a as ih =>
    intro d k
    rw [List.foldl_cons, ih]
    by_cases hk : a.1 = k
    · cases hlast : (as.filter (fun p => p.1 == k)).getLast? with
      | some p =>
        rw [List.filter_cons, if_pos (by simp [hk]), List.getLast?_cons, hlast]
        rfl
      | none =>
        rw [List.filter_cons, if_pos (by simp [hk]), List.getLast?_cons, hlast]
        show (if k = a.1 then some a.2 else d k) = some a.2
        exact if_pos hk.symm
    · rw [List.filter_cons, if_neg (by simp [hk])]
      cases hlast : (as.filter (fun p => p.1 == k)).getLast? with
      | some p => rfl
      | none =>
        show (if k = a.1 then some a.2 else d k) = d k
        exact if_neg (fun he => hk he.symm)

/-- Re-applying the same sequence of updates to its own result changes
nothing (last-wins makes the second pass a no-op). -/
theorem foldl_catsUpd_idem (ls : List (String × Category)) (d : Cats) :
    ls.foldl catsUpd (ls.foldl catsUpd d) = ls.foldl catsUpd d := by
  funext k
  rw [foldl_catsUpd_apply, foldl_catsUpd_apply]
  cases hlast : (ls.filter (fun p => p.1 == k)).getLast? with
  | some p => rfl
  | none => rfl

/-- Unfolding of `linkPairs` over a leading row. -/
theorem linkPairs_cons (x : Node) (l : List Node) :
    linkPairs (x :: l) =
      ((x.findAllDesc (fun n => n.tagName = "a")).filterMap
        (fun a => (a.getAttr "href").map
          (fun h => (strip a.textAll, Category.mk h (strip a.textAll))))) ++
        linkPairs l := by
  rw [linkPairs, linkPairs, List.flatMap_cons]

/-- Under both markers and present `href`s, the collector returns exactly
the link pairs of the rows before the terminating row. -/
theorem collectRows_eq_linkPairs :
    ∀ sibs : List Node,
      (∃ r ∈ sibs, r.isElem ∧ rowIsQuickSearch r) →
      (∀ r ∈ rowsBefore sibs, ∀ a ∈ r.findAllDesc (fun n => n.tagName = "a"),
        (a.getAttr "href").isSome) →
      collectRows sibs = .ok (linkPairs (rowsBefore sibs)) := by
  intro sibs
  induction sibs with
  | nil =>
    intro hq _
    obtain ⟨r, hm, _⟩ := hq
    exact absurd hm (by simp)
  | cons r rs ih =>
    intro hq hh
    match r with
    | .text s =>
      have hrb : rowsBefore (Node.text s :: rs) = Node.text s :: rowsBefore rs := rfl
      have hq' : ∃ r ∈ rs, r.isElem ∧ rowIsQuickSearch r := by
        obtain ⟨r', hm, he, hqs'⟩ := hq
        rcases List.mem_cons.mp hm with rfl | hm'
        · simp [Node.isElem] at he
        · exact ⟨r', hm', he, hqs'⟩
      have hh' : ∀ r ∈ rowsBefore rs,
          ∀ a ∈ r.findAllDesc (fun n => n.tagName = "a"),
          (a.getAttr "href").isSome := by
        intro r hm a2 ha2
        exact hh r (by rw [hrb]; exact List.mem_cons_of_mem _ hm) a2 ha2
      exact ih hq' hh'
    | .elem t a cs =>
      by_cases hqs : rowIsQuickSearch (.elem t a cs) = true
      · rw [collectRows, if_pos hqs]
        have hrb : rowsBefore (Node.elem t a cs :: rs) = [] := by
          rw [rowsBefore, List.takeWhile_cons,
            if_neg (by simp [Node.isElem, hqs])]
        rw [hrb]
        rfl
      · have hrb : rowsBefore (Node.elem t a cs :: rs) =
            Node.elem t a cs :: rowsBefore rs := by
          rw [rowsBefore, List.takeWhile_cons,
            if_pos (by simp [Node.isElem]; simpa using hqs)]
          rfl
        rw [collectRows, if_neg hqs]
        have hlinks := hh (Node.elem t a cs)
          (by rw [hrb]; exact List.mem_cons_self _ _)
        have hle : rowLinksE (Node.elem t a cs) =
            .ok (((Node.elem t a cs).findAllDesc
              (fun n => n.tagName = "a")).filterMap
              (fun a => (a.getAttr "href").map
                (fun h => (strip a.textAll, Category.mk h (strip a.textAll))))) := by
          rw [rowLinksE]
          exact linksOf_ok_of_hrefs _ hlinks
        have hq' : ∃ r ∈ rs, r.isElem ∧ rowIsQuickSearch r := by
          obtain ⟨r', hm, he, hqs'⟩ := hq
          rcases List.mem_cons.mp hm with rfl | hm'
          · exact absurd hqs' hqs
          · exact ⟨r', hm', he, hqs'⟩
        have hh' : ∀ r ∈ rowsBefore rs,
            ∀ a ∈ r.findAllDesc (fun n => n.tagName = "a"),
            (a.getAttr "href").isSome := by
          intro r hm a2 ha2
          exact hh r (by rw [hrb]; exact List.mem_cons_of_mem _ hm) a2 ha2
        rw [hle, ih hq' hh', hrb, linkPairs_cons]

/-- C3: `get_categories` fails with the structure error exactly when no
`td` cell whose `.string` contains "VIEW BY CATEGORY" exists anywhere in
the document; equivalently, the anchor-row search succeeds exactly when
such a marker cell exists. -/
theorem get_categories_structure (doc : Node) (d : Cats) :
    (get_categories d doc = .error .structureError ↔
      Node.findDesc (tdWithStringHas "VIEW BY CATEGORY") doc = none) ∧
    ((findAnchor "VIEW BY CATEGORY" doc).isSome ↔
      (Node.findDesc (tdWithStringHas "VIEW BY CATEGORY") doc).isSome) := by
  have hiso := findAnchor_isSome_eq "VIEW BY CATEGORY" doc
  constructor
  · constructor
    · intro h
      rw [get_categories] at h
      rcases hfa : findAnchor "VIEW BY CATEGORY" doc with _ | sibs
      · rw [hfa] at hiso
        cases hfd : Node.findDesc (tdWithStringHas "VIEW BY CATEGORY") doc with
        | none => rfl
        | some r =>
          rw [hfd] at hiso
          simp at hiso
      · rw [hfa] at h
        exact absurd h (walkRows_not_structure sibs d)
    · intro h
      rw [get_categories]
      rcases hfa : findAnchor "VIEW BY CATEGORY" doc with _ | sibs
      · rfl
      · rw [hfa, h] at hiso
        simp at hiso
  · rw [hiso]

/-- C6: category extraction merges into the existing mapping with
last-wins semantics — a second run on the same document is a no-op; keys
untouched by the collected links keep their old value (merge, not
replace), and the last collected pair for a key wins. -/
theorem get_categories_merge_idem :
    (∀ (doc : Node) (d d' : Cats), get_categories d doc = .ok d' →
      get_categories d' doc = .ok d') ∧
    (∀ (ls : List (String × Category)) (d : Cats) (k : String),
      (∀ p ∈ ls, p.1 ≠ k) → (ls.foldl catsUpd d) k = d k) ∧
    (∀ (pre rest : List (String × Category)) (d : Cats) (k : String) (v : Category),
      (∀ p ∈ rest, p.1 ≠ k) →
      ((pre ++ (k, v) :: rest).foldl catsUpd d) k = some v) := by
  refine ⟨?_, ?_, ?_⟩
  · intro doc d d' h
    rw [get_categories] at h ⊢
    rcases hfa : findAnchor "VIEW BY CATEGORY" doc with _ | sibs
    · rw [hfa] at h
      exact absurd h (by simp)
    · rw [hfa] at h
      have h2 : walkRows d sibs = .ok d' := h
      show walkRows d' sibs = Except.ok d'
      rw [walkRows_map] at h2 ⊢
      rcases hcr : collectRows sibs with e | ls
      · rw [hcr] at h2
        have h' : (Except.error e : Except QError Cats) = .ok d' := h2
        exact absurd h' (by simp)
      · rw [hcr] at h2
        have h' : (Except.ok (ls.foldl catsUpd d) : Except QError Cats) = .ok d' := h2
        obtain rfl : ls.foldl catsUpd d = d' := Except.ok.inj h'
        show Except.ok (ls.foldl catsUpd (ls.foldl catsUpd d)) = _
        rw [foldl_catsUpd_idem]
  · intro ls d k hnone
    rw [foldl_catsUpd_apply]
    have hfil : List.filter (fun p => p.1 == k) ls = [] := by
      rw [List.filter_eq_nil_iff]
      intro p hp
      simpa using hnone p hp
    rw [hfil]
    rfl
  · intro pre rest d k v hrest
    rw [foldl_catsUpd_apply, List.filter_append, List.filter_cons,
      if_pos (by simp)]
    have hre : List.filter (fun p => p.1 == k) rest = [] := by
      rw [List.filter_eq_nil_iff]
      intro p hp
      simpa using hrest p hp
    rw [hre, List.getLast?_concat]

/-- Witness for C6: scraping the sample index page twice yields the same
mapping as scraping it once. -/
theorem get_categories_merge_idem_witness :
    get_categories emptyCats catsDoc = .ok catsDocResult ∧
    get_categories catsDocResult catsDoc = .ok catsDocResult :=
  ⟨rfl, get_categories_merge_idem.1 catsDoc emptyCats catsDocResult rfl⟩

/-- C7 (counterexample): a document whose marker rows are adjacent has both
markers in well-formed positions, yet extraction succeeds with the empty
mapping — refuting the unconditional non-emptiness of the result. -/
theorem get_categories_markers_empty_cex :
    findAnchor "VIEW BY CATEGORY" markerOnlyDoc = some [rowQuick] ∧
    rowQuick.isElem = true ∧
    rowIsQuickSearch rowQuick = true ∧
    get_categories emptyCats markerOnlyDoc = .ok emptyCats :=
  ⟨rfl, rfl, rfl, rfl⟩

/-- C7 (amended): with both markers present and every collected link
carrying an `href`, extraction merges exactly the hyperlinks of the
sibling rows strictly between the anchor row and the first "QUICK SEARCH"
row into the mapping; the result is non-empty whenever at least one such
hyperlink exists; and any key whose value changed comes from one of those
hyperlinks — never from the terminating row or rows after it. -/
theorem get_categories_between (doc : Node) (d : Cats) (sibs : List Node)
    (ha : findAnchor "VIEW BY CATEGORY" doc = some sibs)
    (hq : ∃ r ∈ sibs, r.isElem ∧ rowIsQuickSearch r)
    (hh : ∀ r ∈ rowsBefore sibs, ∀ a ∈ r.findAllDesc (fun n => n.tagName = "a"),
      (a.getAttr "href").isSome) :
    get_categories d doc = .ok ((linkPairs (rowsBefore sibs)).foldl catsUpd d) ∧
    (linkPairs (rowsBefore sibs) ≠ [] →
      ∃ k, ((linkPairs (rowsBefore sibs)).foldl catsUpd d) k ≠ none) ∧
    (∀ k, ((linkPairs (rowsBefore sibs)).foldl catsUpd d) k ≠ d k →
      ∃ p ∈ linkPairs (rowsBefore sibs), p.1 = k) := by
  refine ⟨?_, ?_, ?_⟩
  · rw [get_categories, ha]
    show walkRows d sibs = _
    rw [walkRows_map, collectRows_eq_linkPairs sibs hq hh]
    rfl
  · intro hne
    obtain ⟨ps, p, hps⟩ : ∃ ps p, linkPairs (rowsBefore sibs) = ps ++ [p] := by
      rcases List.eq_nil_or_concat (linkPairs (rowsBefore sibs)) with h0 | ⟨L, b, hLb⟩
      · exact absurd h0 hne
      · exact ⟨L, b, by rw [hLb, List.concat_eq_append]⟩
    refine ⟨p.1, ?_⟩
    rw [hps, foldl_catsUpd_apply, List.filter_append,
      show List.filter (fun q => q.1 == p.1) [p] = [p] by simp,
      List.getLast?_concat]
    simp
  · intro k hk
    rw [foldl_catsUpd_apply] at hk
    rcases hlast : (List.filter (fun p => p.1 == k)
        (linkPairs (rowsBefore sibs))).getLast? with _ | p
    · rw [hlast] at hk
      exact absurd rfl hk
    · refine ⟨p, List.mem_of_mem_filter (mem_of_getLast?_eq_some hlast), ?_⟩
      have := (List.mem_filter.mp (mem_of_getLast?_eq_some hlast)).2
      simpa using this

/-- Witness for C7 at the sample index page. -/
theorem get_categories_between_witness :
    findAnchor "VIEW BY CATEGORY" catsDoc =
      some [Node.text "\n", rowCats, rowQuick, rowAfterQS] ∧
    linkPairs (rowsBefore [Node.text "\n", rowCats, rowQuick, rowAfterQS]) =
      [("Antennas", ⟨"index.php?c=1", "Antennas"⟩)] ∧
    get_categories emptyCats catsDoc =
      .ok ((linkPairs (rowsBefore
        [Node.text "\n", rowCats, rowQuick, rowAfterQS])).foldl catsUpd emptyCats) :=
  ⟨rfl, rfl,
    (get_categories_between catsDoc emptyCats
      [Node.text "\n", rowCats, rowQuick, rowAfterQS] rfl
      ⟨rowQuick,
        List.mem_cons_of_mem _ (List.mem_cons_of_mem _ (List.mem_cons_self _ _)),
        rfl, rfl⟩
      (by decide)).1⟩

end Qthrss
